import Mathlib

/-!
# Verification of the `timetree` phylogenetic-tree library

This development embeds the core data model and operations of the
`timetree` package (time-calibrated phylogenetic trees) and settles the
frozen specification claims against that embedding.

Modelling conventions:

* Go's pointer graph of `node` objects is represented as an arena
  (`Tree.arena`), addressed by allocation index (`Ref`).  Pointer fields
  (`parent`, `children`) hold arena indices, and pointer equality is index
  equality.  The `nodes` (`map[int]*node`) and `taxa` (`map[string]*node`)
  Go maps are association lists with unique keys; map insertion replaces
  an existing binding, map deletion removes it, and `len` is the list
  length.  This representation is faithful even to states where a node id
  is reassigned to a fresh node (`len(t.nodes)` colliding with a live id):
  the old node object survives in the arena exactly as the Go object
  survives behind its pointers.
* `int64` ages and branch lengths are modelled as `Int`; wraparound is not
  modelled (ages are years, wraparound needs magnitudes around 2^63).
* Recursive node methods (`size`, `firstTerm`, `maxLen`, `propagateAge`,
  `del`, `sortAllChildren`, `preOrder`, `copySource`, the TSV writer) walk
  the pointer structure; they are embedded with an explicit fuel argument.
  A fuel of `arena.length + 1` dominates the depth of any acyclic
  structure, which is an invariant of every state the proofs consider.
* A Go `nil`-pointer dereference (a crash) is modelled by returning
  `none`; operations that cannot crash return plain values.
-/

set_option maxHeartbeats 1000000

namespace Timetree

/-! ## Association-list model of Go maps -/

/-- Lookup in a Go map modelled as an association list (unique keys). -/
def lookupA {α β : Type} [DecidableEq α] : List (α × β) → α → Option β
  | [], _ => none
  | (k, v) :: rest, a => if k = a then some v else lookupA rest a

/-- Go map assignment `m[k] = v`: replace the binding if the key is
present, otherwise append a fresh binding. -/
def insertA {α β : Type} [DecidableEq α] : List (α × β) → α → β → List (α × β)
  | [], a, b => [(a, b)]
  | (k, v) :: rest, a, b => if k = a then (a, b) :: rest else (k, v) :: insertA rest a b

/-- Go map deletion `delete(m, k)`. -/
def eraseA {α β : Type} [DecidableEq α] : List (α × β) → α → List (α × β)
  | [], _ => []
  | (k, v) :: rest, a => if k = a then rest else (k, v) :: eraseA rest a

/-! ## Small list utilities used by the embedding -/

/-- Insertion step of the sort used to model `slices.Sort` /
`slices.SortFunc`: `before a b` means `a` is strictly ordered before `b`
(the Go comparators used in this package never report equality). -/
def insertSorted {α : Type} (before : α → α → Bool) (x : α) : List α → List α
  | [] => [x]
  | y :: ys => if before x y then x :: y :: ys else y :: insertSorted before x ys

/-- Sorting by a strict comparator.  On lists whose elements are pairwise
comparable (the only situation in which Go's unstable `slices.SortFunc`
has a determined result) this computes the unique sorted arrangement. -/
def sortBy {α : Type} (before : α → α → Bool) : List α → List α
  | [] => []
  | x :: xs => insertSorted before x (sortBy before xs)

/-- Replace the first occurrence of `a` by `b`, modelling the Go idiom
`for i, d := range xs { if d == a { xs[i] = b; break } }`. -/
def replaceFirst : List Nat → Nat → Nat → List Nat
  | [], _, _ => []
  | x :: xs, a, b => if x = a then b :: xs else x :: replaceFirst xs a b

/-! ## Strings

Strings are handled through their character lists (structural recursion,
so that concrete executions reduce inside the kernel).  Go compares
strings in byte order; UTF-8 byte order coincides with code-point order,
so the character-wise comparison below is faithful. -/

/-- Accumulator pass of `strings.Fields`: whitespace-separated words. -/
def wordsAux : List Char → List Char → List (List Char)
  | [], acc => if acc = [] then [] else [acc.reverse]
  | c :: cs, acc =>
    if c.isWhitespace then
      if acc = [] then wordsAux cs [] else acc.reverse :: wordsAux cs []
    else wordsAux cs (c :: acc)

/-- `strings.Join(strings.Fields(s), " ")`: collapse whitespace runs. -/
def normWords (s : String) : String :=
  String.mk (List.intercalate [' '] (wordsAux s.data []))

/-- `strings.ToLower`. -/
def lowerStr (s : String) : String := String.mk (s.data.map Char.toLower)

/-- Go's `<` on strings (byte order; on UTF-8 this is code-point
lexicographic order). -/
def ltStrChars : List Char → List Char → Bool
  | [], [] => false
  | [], _ :: _ => true
  | _ :: _, [] => false
  | a :: as, b :: bs => if a < b then true else if b < a then false else ltStrChars as bs

/-- Go's `<` on strings. -/
def ltStr (a b : String) : Bool := ltStrChars a.data b.data

/-- Canonical form of a taxon name: collapse whitespace runs, lower-case,
then upper-case the first character (from `canon` in the source). -/
def canon (name : String) : String :=
  let j := List.intercalate [' '] (wordsAux name.data [])
  if j = [] then ""
  else
    match j.map Char.toLower with
    | [] => ""
    | c :: cs => String.mk (Char.toUpper c :: cs)

/-! ## The data model -/

/-- Arena address of a node object (allocation index).  Plays the role of
a Go pointer `*node`. -/
abbrev Ref := Nat

/-- A node in a phylogenetic tree (struct `node` in the source). -/
structure GoNode where
  id : Int
  parent : Option Ref
  age : Int
  taxon : String
  brLen : Int
  children : List Ref
deriving Repr, DecidableEq, Inhabited

/-- Value returned when reading an arena index that was never allocated;
well-formed executions never do. -/
def nullNode : GoNode :=
  { id := -1, parent := none, age := 0, taxon := "", brLen := 0, children := [] }

/-- A time-calibrated phylogenetic tree (struct `Tree` in the source). -/
structure Tree where
  name : String
  arena : List GoNode
  nodes : List (Int × Ref)
  taxa : List (String × Ref)
  root : Ref
deriving Repr, DecidableEq, Inhabited

/-- Dereference an arena address. -/
def Tree.nodeAt (t : Tree) (r : Ref) : GoNode := (t.arena[r]?).getD nullNode

/-- Overwrite the node object at an arena address. -/
def Tree.setNode (t : Tree) (r : Ref) (n : GoNode) : Tree :=
  { t with arena := t.arena.set r n }

/-- Mutate the node object at an arena address. -/
def Tree.modifyNode (t : Tree) (r : Ref) (f : GoNode → GoNode) : Tree :=
  t.setNode r (f (t.nodeAt r))

deriving instance DecidableEq for Except

/-- Error values of the package (`errors.New` sentinels in the source). -/
inductive Err where
  | addNoParent
  | addRepeated
  | addInvalidBrLen
  | addNoSister
  | addRootSister
  | valSingleChild
  | valUnnamedTerm
  | invalidRootAge
  | olderAge
  | youngerAge
deriving Repr, DecidableEq

/-! ## Construction and mutation -/

/-- `New`: a single-node tree with a root of the given age. -/
def New (name : String) (age : Int) : Tree :=
  let root : GoNode :=
    { id := 0, parent := none, age := age, taxon := "", brLen := 0, children := [] }
  { name := name, arena := [root], nodes := [((0 : Int), (0 : Ref))], taxa := [], root := 0 }

/-- `Tree.Add`: add a child of the node with the given ID, with the given
branch length and (possibly empty) taxon name.  Returns the updated tree
together with the new node ID or an error (the tree is unchanged on
error paths, as in the source where no mutation precedes a `return`). -/
def Tree.Add (t : Tree) (id : Int) (brLen : Int) (name : String) :
    Tree × Except Err Int :=
  match lookupA t.nodes id with
  | none => (t, .error .addNoParent)
  | some pr =>
    let nm := canon name
    if nm ≠ "" ∧ (lookupA t.taxa nm).isSome then (t, .error .addRepeated)
    else
      let p := t.nodeAt pr
      let age := p.age - brLen
      if age < 0 then (t, .error .addInvalidBrLen)
      else
        let nid : Int := t.nodes.length
        let nref : Ref := t.arena.length
        let n : GoNode :=
          { id := nid, parent := some pr, age := age, taxon := nm,
            brLen := brLen, children := [] }
        let t1 := t.modifyNode pr (fun q => { q with children := q.children ++ [nref] })
        let t2 : Tree :=
          { t1 with
            arena := t1.arena ++ [n],
            nodes := insertA t1.nodes nid nref,
            taxa := if nm ≠ "" then insertA t1.taxa nm nref else t1.taxa }
        (t2, .ok nid)

/-- `Tree.AddSister`: insert a new internal parent between the node with
the given ID and its current parent, and a new named node as second child
of that new parent.  `none` models the nil dereference of
`sister.parent` (only possible on a malformed tree, since the root is
rejected first). -/
def Tree.AddSister (t : Tree) (id : Int) (age brLen : Int) (name : String) :
    Option (Tree × Except Err Int) :=
  match lookupA t.nodes id with
  | none => some (t, .error .addNoSister)
  | some sref =>
    if t.root = sref then some (t, .error .addRootSister)
    else
      let nm := canon name
      if nm ≠ "" ∧ (lookupA t.taxa nm).isSome then some (t, .error .addRepeated)
      else
        let sister := t.nodeAt sref
        let pAge := age + brLen
        if pAge < sister.age then some (t, .error .youngerAge)
        else
          match sister.parent with
          | none => none
          | some ppr =>
            let pp := t.nodeAt ppr
            if pp.age ≤ pAge then some (t, .error .olderAge)
            else
              let pid : Int := t.nodes.length
              let pref : Ref := t.arena.length
              let p : GoNode :=
                { id := pid, parent := some ppr, age := pAge, taxon := "",
                  brLen := pp.age - age, children := [] }
              let t1 : Tree :=
                { t with arena := t.arena ++ [p], nodes := insertA t.nodes pid pref }
              let t2 := t1.modifyNode ppr
                (fun q => { q with children := replaceFirst q.children sref pref })
              let t3 := t2.modifyNode pref
                (fun q => { q with children := q.children ++ [sref] })
              let t4 := t3.modifyNode sref (fun q => { q with parent := some pref })
              let nid : Int := t4.nodes.length
              let nref : Ref := t4.arena.length
              let n : GoNode :=
                { id := nid, parent := some pref, age := age, taxon := nm,
                  brLen := brLen, children := [] }
              let t5 : Tree :=
                { t4 with arena := t4.arena ++ [n], nodes := insertA t4.nodes nid nref }
              let t6 := t5.modifyNode pref
                (fun q => { q with children := q.children ++ [nref] })
              let t7 : Tree :=
                { t6 with taxa := if nm ≠ "" then insertA t6.taxa nm nref else t6.taxa }
              some (t7, .ok nid)

/-! ## Read-only queries -/

/-- `Tree.Age`: age of a node, `0` for an unknown ID. -/
def Tree.Age (t : Tree) (id : Int) : Int :=
  match lookupA t.nodes id with
  | none => 0
  | some r => (t.nodeAt r).age

/-- `Tree.Parent`: ID of a node's parent, `-1` for the root or an unknown
ID. -/
def Tree.Parent (t : Tree) (id : Int) : Int :=
  match lookupA t.nodes id with
  | none => -1
  | some r =>
    match (t.nodeAt r).parent with
    | none => -1
    | some pr => (t.nodeAt pr).id

/-- Ascending sort of IDs (`slices.Sort`). -/
def sortInts (l : List Int) : List Int := sortBy (fun a b => decide (a < b)) l

/-- `Tree.Children`: sorted IDs of the children of a node. -/
def Tree.Children (t : Tree) (id : Int) : List Int :=
  match lookupA t.nodes id with
  | none => []
  | some r =>
    let n := t.nodeAt r
    if n.children = [] then []
    else sortInts (n.children.map (fun c => (t.nodeAt c).id))

/-- `Tree.IsRoot`: whether the node with the given ID has no parent. -/
def Tree.IsRoot (t : Tree) (id : Int) : Bool :=
  match lookupA t.nodes id with
  | none => false
  | some r => (t.nodeAt r).parent = none

/-- `Tree.IsTerm`: whether the node with the given ID is a terminal. -/
def Tree.IsTerm (t : Tree) (id : Int) : Bool :=
  match lookupA t.nodes id with
  | none => false
  | some r => (t.nodeAt r).children = []

/-- `Tree.Taxon`: taxon name of a node, empty for an unknown ID. -/
def Tree.Taxon (t : Tree) (id : Int) : String :=
  match lookupA t.nodes id with
  | none => ""
  | some r => (t.nodeAt r).taxon

/-- `Tree.TaxNode`: ID of the node carrying a taxon name (`none` models
the `(-1, false)` return). -/
def Tree.TaxNode (t : Tree) (name : String) : Option Int :=
  let nm := canon name
  if nm = "" then none
  else
    match lookupA t.taxa nm with
    | none => none
    | some r => some (t.nodeAt r).id

/-- Ascending sort of names (`slices.Sort` on strings). -/
def sortStrings (l : List String) : List String := sortBy ltStr l

/-- `Tree.Taxa`: sorted list of all defined taxon names.  Go iterates the
`taxa` map in unspecified order; the sorted result is order-independent. -/
def Tree.Taxa (t : Tree) : List String :=
  sortStrings (t.taxa.map (fun kv => (t.nodeAt kv.2).taxon))

/-- `Tree.Terms`: sorted names of the named terminals. -/
def Tree.Terms (t : Tree) : List String :=
  sortStrings
    ((t.taxa.filter (fun kv => (t.nodeAt kv.2).children = [])).map
      (fun kv => (t.nodeAt kv.2).taxon))

/-- The validation issue a single node contributes, if any. -/
def nodeIssue (t : Tree) (r : Ref) : Option Err :=
  let n := t.nodeAt r
  if n.children.length = 1 then some .valSingleChild
  else if n.children = [] ∧ n.taxon = "" then some .valUnnamedTerm
  else none

/-- `Tree.Validate`: reports a node with a single child or an unnamed
terminal.  Go iterates the map in unspecified order, so the identity of
the reported offender is unspecified; success versus failure is not, and
only that is used in claims. -/
def Tree.Validate (t : Tree) : Option Err :=
  t.nodes.findSome? (fun kv => nodeIssue t kv.2)

/-- Number of nodes of the tree (`len(t.nodes)`). -/
def Tree.numNodes (t : Tree) : Nat := t.nodes.length

/-- `Tree.Nodes`: sorted IDs of the nodes of the tree. -/
def Tree.Nodes (t : Tree) : List Int :=
  sortInts (t.nodes.map (fun kv => (t.nodeAt kv.2).id))

/-- `Tree.Root`: ID of the root node. -/
def Tree.Root (t : Tree) : Int := (t.nodeAt t.root).id

/-! ## Deletion -/

/-- `node.del`: remove a node and all of its descendants from the `nodes`
and `taxa` maps.  The recursion over children pointers carries fuel; a
fuel exceeding the depth of the subtree (any value above `arena.length`
on acyclic states) makes it exact. -/
def delF : Nat → Tree → Ref → Tree
  | 0, t, _ => t
  | fuel + 1, t, r =>
    let n := t.nodeAt r
    let t1 : Tree :=
      { t with
        nodes := eraseA t.nodes n.id,
        taxa := if n.taxon ≠ "" then eraseA t.taxa n.taxon else t.taxa }
    n.children.foldl (fun acc c => delF fuel acc c) t1

/-- Visit order of `node.del`: the arena refs whose map entries `del`
removes (the node itself, then each child subtree in turn).  `del`
never modifies the arena, so this order is determined up front by the
arena alone. -/
def delRefsF : Nat → Tree → Ref → List Ref
  | 0, _, _ => []
  | fuel + 1, t, r =>
    (t.nodeAt r).children.foldl (fun acc c => acc ++ delRefsF fuel t c) [r]

/-- `Tree.Delete`: remove a node and its subtree.  `none` models the nil
dereference `len(p.children)` reached when the node has no parent (the
root).  The source marks list slots with `nil` to exclude them from
`del`'s recursion and (in the polytomy case) compacts the slice; the
embedding removes those entries from the child list up front, which has
the same effect on every observable component (the marked entries belong
to nodes that are unmapped by `del` immediately afterwards).  The
dichotomous branch mirrors the source's loops under the branch guard
`len(p.children) <= 2`: the surviving sibling, when present, is the first
(and only) child different from the deleted node. -/
def Tree.Delete (t : Tree) (id : Int) : Option Tree :=
  match lookupA t.nodes id with
  | none => some t
  | some nref =>
    let n := t.nodeAt nref
    match n.parent with
    | none => none
    | some pref =>
      let p := t.nodeAt pref
      if 2 < p.children.length then
        let t1 := t.modifyNode pref (fun q => { q with children := q.children.erase nref })
        let t2 := t1.modifyNode nref (fun q => { q with parent := none })
        some (delF (t2.arena.length + 1) t2 nref)
      else
        match p.parent with
        | none =>
          match p.children.find? (fun c => c ≠ nref) with
          | some s =>
            let t1 : Tree := { t with root := s }
            let t2 := t1.modifyNode s (fun q => { q with parent := none })
            let t3 := t2.modifyNode pref (fun q => { q with children := q.children.erase s })
            some (delF (t3.arena.length + 1) t3 pref)
          | none => some (delF (t.arena.length + 1) t pref)
        | some ancref =>
          let base :=
            if pref ∈ (t.nodeAt ancref).children then
              match p.children.find? (fun c => c ≠ nref) with
              | some s =>
                let t1 := t.modifyNode ancref
                  (fun q => { q with children := replaceFirst q.children pref s })
                let t2 := t1.modifyNode pref
                  (fun q => { q with children := q.children.erase s })
                t2.modifyNode s (fun q => { q with parent := some ancref })
              | none => t
            else t
          let t4 := base.modifyNode pref (fun q => { q with parent := none })
          some (delF (t4.arena.length + 1) t4 pref)

/-! ## Ages: `Move` and `Set` -/

/-- `node.maxLen`: maximum cumulative branch length from the node's
ancestral branch down to any terminal. -/
def maxLenF : Nat → Tree → Ref → Int
  | 0, _, _ => 0
  | fuel + 1, t, r =>
    let n := t.nodeAt r
    let cLen := n.children.foldl (fun acc c => max acc (maxLenF fuel t c)) 0
    cLen + n.brLen

/-- `node.propagateAge`: walk the subtree top-down resetting each node's
age to its parent's (already updated) age minus its stored branch
length. -/
def propagateF : Nat → Tree → Ref → Tree
  | 0, t, _ => t
  | fuel + 1, t, r =>
    let n := t.nodeAt r
    let t1 :=
      match n.parent with
      | none => t
      | some pr => t.setNode r { n with age := (t.nodeAt pr).age - n.brLen }
    n.children.foldl (fun acc c => propagateF fuel acc c) t1

/-- `Tree.Move`: set the root age and re-derive every age from the stored
branch lengths. -/
def Tree.Move (t : Tree) (age : Int) : Tree × Option Err :=
  let mx := maxLenF (t.arena.length + 1) t t.root
  if age < mx then (t, some .invalidRootAge)
  else
    let t1 := t.modifyNode t.root (fun q => { q with age := age })
    (propagateF (t1.arena.length + 1) t1 t1.root, none)

/-- `Tree.Set`: set the age of a single node in place.  Unknown IDs are
no-ops.  Note the source does not touch any stored branch length. -/
def Tree.Set (t : Tree) (id : Int) (age : Int) : Tree × Option Err :=
  match lookupA t.nodes id with
  | none => (t, none)
  | some r =>
    let n := t.nodeAt r
    let pTooOld :=
      match n.parent with
      | none => false
      | some pr => decide ((t.nodeAt pr).age < age)
    if pTooOld then (t, some .olderAge)
    else
      let mx := n.children.foldl (fun acc c => max acc (t.nodeAt c).age) 0
      if age < mx then (t, some .youngerAge)
      else (t.setNode r { n with age := age }, none)

/-- `Tree.SetName`: rename or clear a node's taxon.  The source's clear
branch for a named internal node removes the `taxa` map entry but leaves
the node's `taxon` field unchanged; the embedding reproduces that
behavior faithfully. -/
def Tree.SetName (t : Tree) (id : Int) (name : String) : Tree × Option Err :=
  match lookupA t.nodes id with
  | none => (t, none)
  | some r =>
    let n := t.nodeAt r
    let nm := canon name
    if nm = "" then
      if n.children = [] then (t, some .valUnnamedTerm)
      else if n.taxon = "" then (t, none)
      else ({ t with taxa := eraseA t.taxa n.taxon }, none)
    else
      if (lookupA t.taxa nm).isSome then (t, some .addRepeated)
      else
        let t1 : Tree :=
          if n.taxon ≠ "" then { t with taxa := eraseA t.taxa n.taxon } else t
        let t2 := t1.setNode r { n with taxon := nm }
        ({ t2 with taxa := insertA t2.taxa nm r }, none)

/-! ## Canonical ordering: `Format` -/

/-- `node.size`: number of terminals below (and including) a node. -/
def sizeF : Nat → Tree → Ref → Nat
  | 0, _, _ => 0
  | fuel + 1, t, r =>
    let n := t.nodeAt r
    if n.children = [] then 1
    else n.children.foldl (fun acc c => acc + sizeF fuel t c) 0

/-- `node.firstTerm`: lexicographically smallest terminal taxon in the
subtree. -/
def firstTermF : Nat → Tree → Ref → String
  | 0, _, _ => ""
  | fuel + 1, t, r =>
    let n := t.nodeAt r
    match n.children with
    | [] => n.taxon
    | c :: rest =>
      rest.foldl
        (fun acc d =>
          let s := firstTermF fuel t d
          if ltStr s acc then s else acc)
        (firstTermF fuel t c)

/-- The child comparator of `sortAllChildren`: smaller terminal count
first, then larger (older) age, then smaller first terminal.  The Go
comparator returns -1 or 1, never 0; this is the `-1` (strictly before)
case. -/
def nodeBefore (t : Tree) (fuel : Nat) (a b : Ref) : Bool :=
  let szA := sizeF fuel t a
  let szB := sizeF fuel t b
  if szA ≠ szB then decide (szA < szB)
  else
    let na := t.nodeAt a
    let nb := t.nodeAt b
    if na.age ≠ nb.age then decide (nb.age < na.age)
    else ltStr (firstTermF fuel t a) (firstTermF fuel t b)

/-- `node.sortAllChildren`: recursively sort every child list by
`nodeBefore`. -/
def sortAllF : Nat → Tree → Ref → Tree
  | 0, t, _ => t
  | fuel + 1, t, r =>
    let t1 := (t.nodeAt r).children.foldl (fun acc c => sortAllF fuel acc c) t
    t1.modifyNode r
      (fun q =>
        { q with
          children := sortBy (fun a b => nodeBefore t1 (t1.arena.length + 1) a b) q.children })

/-- `Tree.preOrder`: the nodes of a subtree in pre-order. -/
def preOrderF : Nat → Tree → Ref → List Ref
  | 0, _, _ => []
  | fuel + 1, t, r =>
    r :: (t.nodeAt r).children.foldl (fun acc c => acc ++ preOrderF fuel t c) []

/-- `Tree.Format`: sort all child lists, then renumber node IDs in
pre-order and rebuild the `nodes` map from the renumbered nodes. -/
def Tree.Format (t : Tree) : Tree :=
  let t1 := sortAllF (t.arena.length + 1) t t.root
  let ns := preOrderF (t1.arena.length + 1) t1 t1.root
  let t2 := ns.enum.foldl
    (fun acc ir => acc.modifyNode ir.2 (fun q => { q with id := (ir.1 : Int) })) t1
  { t2 with nodes := ns.enum.map (fun ir => ((ir.1 : Int), ir.2)) }

/-! ## Subtree extraction -/

/-- `Tree.copySource`: deep-copy a source subtree into a (new) tree,
allocating fresh sequential IDs, recomputing branch lengths against the
new parent and registering taxa.  Returns the updated target tree and the
arena address of the copied node. -/
def copySourceF : Nat → Tree → Tree → Option Ref → Ref → Tree × Ref
  | 0, sub, _, _, _ => (sub, 0)
  | fuel + 1, sub, src, p, sref =>
    let s := src.nodeAt sref
    let nid : Int := sub.nodes.length
    let nref : Ref := sub.arena.length
    let n : GoNode :=
      { id := nid, parent := p, age := s.age, taxon := s.taxon,
        brLen := 0, children := [] }
    let sub1 : Tree :=
      { sub with arena := sub.arena ++ [n], nodes := insertA sub.nodes nid nref }
    let sub2 := s.children.foldl
      (fun acc c =>
        let pr := copySourceF fuel acc src (some nref) c
        pr.1.modifyNode nref (fun q => { q with children := q.children ++ [pr.2] }))
      sub1
    let sub3 :=
      match p with
      | some pr => sub2.modifyNode nref
          (fun q => { q with brLen := (sub2.nodeAt pr).age - q.age })
      | none => sub2
    let sub4 : Tree :=
      if s.taxon ≠ "" then { sub3 with taxa := insertA sub3.taxa s.taxon nref } else sub3
    (sub4, nref)

/-- `Tree.SubTree`: deep-copy the subtree at a node into a brand-new tree
and canonicalize it.  `none` models the `nil` return for an unknown ID. -/
def Tree.SubTree (t : Tree) (id : Int) (name : String) : Option Tree :=
  match lookupA t.nodes id with
  | none => none
  | some r =>
    let nm0 := normWords name
    let nm1 := if nm0 = "" then (t.nodeAt r).taxon else nm0
    let nm2 := if nm1 = "" then t.name ++ ":node-" ++ toString id else nm1
    let nm := lowerStr nm2
    let sub0 : Tree := { name := nm, arena := [], nodes := [], taxa := [], root := 0 }
    let pr := copySourceF (t.arena.length + 1) sub0 t none r
    some (Tree.Format { pr.1 with root := pr.2 })

/-! ## Most recent common ancestor -/

/-- Root-to-node list of ancestor IDs, built by walking parent pointers
(the source prepends IDs while walking upward). -/
def pathF : Nat → Tree → Ref → List Int
  | 0, _, _ => []
  | fuel + 1, t, r =>
    let n := t.nodeAt r
    match n.parent with
    | none => [n.id]
    | some pr => pathF fuel t pr ++ [n.id]

/-- The lock-step truncation loop of `MRCA`: longest common prefix of two
ID lists. -/
def lockstep : List Int → List Int → List Int
  | [], _ => []
  | _ :: _, [] => []
  | a :: as, b :: bs => if a = b then a :: lockstep as bs else []

/-- The fold of `MRCA` over the remaining names; `none` propagates the
early `-1` return for an unknown name. -/
def mrcaLoop (t : Tree) (fuel : Nat) : List Int → List String → Option (List Int)
  | mrca, [] => some mrca
  | mrca, nm :: rest =>
    match lookupA t.taxa (canon nm) with
    | none => none
    | some r => mrcaLoop t fuel (lockstep mrca (pathF fuel t r)) rest

/-- `Tree.MRCA`: most recent common ancestor of the named nodes.  The
result is `some v` for the value the Go function returns; `none` models
the out-of-range panic `mrca[len(mrca)-1]` on an empty intersection
(impossible on well-formed trees, whose paths share the root). -/
def Tree.MRCA (t : Tree) (names : List String) : Option Int :=
  match names with
  | [] => some (-1)
  | nm0 :: rest =>
    match lookupA t.taxa (canon nm0) with
    | none => some (-1)
    | some r0 =>
      if rest = [] then some (t.nodeAt r0).id
      else
        let fuel := t.arena.length + 1
        match mrcaLoop t fuel (pathF fuel t r0) rest with
        | none => some (-1)
        | some mrca =>
          match mrca.getLast? with
          | some v => some v
          | none => none

/-! ## Tabular (TSV) contract

The claims about the TSV codec concern the tabular row contract: one
record per node with fields `tree, node, parent, age, taxon`.  The
embedding works at that record level; the byte-level CSV framing of the
Go library is not modelled. -/

/-- One row of the tabular format. -/
structure Row where
  tree : String
  node : Int
  parent : Int
  age : Int
  taxon : String
deriving Repr, DecidableEq

/-- `node.tsv`: the writer emits one row per node in pre-order from the
root. -/
def rowsF : Nat → Tree → String → Ref → List Row
  | 0, _, _, _ => []
  | fuel + 1, t, nm, r =>
    let n := t.nodeAt r
    let p : Int :=
      match n.parent with
      | none => -1
      | some pr => (t.nodeAt pr).id
    { tree := nm, node := n.id, parent := p, age := n.age, taxon := n.taxon } ::
      n.children.foldl (fun acc c => acc ++ rowsF fuel t nm c) []

/-- `Tree.tsv`: all rows of a tree, in writer order. -/
def Tree.tsvRows (t : Tree) : List Row := rowsF (t.arena.length + 1) t t.name t.root

/-- Reader errors of `ReadTSV` (parse-level errors of the CSV layer are
not modelled; rows arrive already structured). -/
inductive RErr where
  | dupNode
  | rootRedef
  | badAge
  | dupTaxon
  | invalid (e : Err)
deriving Repr, DecidableEq

/-- Reader state for one tree: Go's freshly allocated `&Tree{...}` has a
nil root pointer until a root row arrives; `hasRoot` models that
pointer's nilness (the `root` field is junk while `hasRoot = false`). -/
structure RTree where
  tree : Tree
  hasRoot : Bool
deriving Repr, DecidableEq

/-- Processing of a single row by `ReadTSV`.  Mirrors the source,
including its quirk that a non-negative `parent` ID that is not (yet) in
the tree falls through with a nil parent — the dead `if err != nil`
branch — making the row define a root. -/
def readRow (c : List (String × RTree)) (row : Row) :
    Except RErr (List (String × RTree)) :=
  let name := lowerStr (normWords row.tree)
  if name = "" then .ok c
  else
    let rt :=
      match lookupA c name with
      | some rt => rt
      | none =>
        { tree := { name := name, arena := [], nodes := [], taxa := [], root := 0 },
          hasRoot := false }
    let t := rt.tree
    if (lookupA t.nodes row.node).isSome then .error .dupNode
    else
      let p : Option Ref := if row.parent ≥ 0 then lookupA t.nodes row.parent else none
      if row.parent < 0 ∧ rt.hasRoot then .error .rootRedef
      else
        let ageBad :=
          match p with
          | some pr => decide ((t.nodeAt pr).age < row.age)
          | none => false
        if ageBad then .error .badAge
        else
          let tax := canon row.taxon
          if tax ≠ "" ∧ (lookupA t.taxa tax).isSome then .error .dupTaxon
          else
            let nref : Ref := t.arena.length
            let brLen : Int :=
              match p with
              | some pr => (t.nodeAt pr).age - row.age
              | none => 0
            let n : GoNode :=
              { id := row.node, parent := p, age := row.age, taxon := tax,
                brLen := brLen, children := [] }
            let t1 : Tree :=
              { t with arena := t.arena ++ [n], nodes := insertA t.nodes row.node nref }
            let t2 :=
              match p with
              | some pr => t1.modifyNode pr
                  (fun q => { q with children := q.children ++ [nref] })
              | none => { t1 with root := nref }
            let t3 : Tree :=
              { t2 with taxa := if tax ≠ "" then insertA t2.taxa tax nref else t2.taxa }
            .ok (insertA c name { tree := t3, hasRoot := rt.hasRoot ∨ p = none })

/-- The finalization `ReadTSV` applies to each tree: `t.sortNodes()`
followed by `t.Validate()`.

Modelled from the spec: `sortNodes` is called by `ReadTSV` (and by the
Newick parser) but its definition is not among the sources; per the
spec's system overview a parser "finalizes (age inference, invariant
validation, canonical ordering)", so it is modelled as the canonical
ordering pass, which the sources implement as `Format`. -/
def finishTree (rt : RTree) : Except RErr Tree :=
  let t := rt.tree.Format
  match t.Validate with
  | some e => .error (.invalid e)
  | none => .ok t

/-- `ReadTSV` over structured rows: fold the rows into a collection of
trees, then canonically order and validate each tree. -/
def ReadTSVRows (rows : List Row) : Except RErr (List (String × Tree)) := do
  let c ← rows.foldlM readRow []
  c.mapM (fun kv => do
    let t ← finishTree kv.2
    pure (kv.1, t))

/-! ## Newick branch lengths (`readBrLen`)

Branch lengths in Newick input are `float64` million-year values.  The
embedding models a parsed `float64` by the exact rational it denotes;
the arithmetic below (`v < 1.0/millionYears`, `v * millionYears`)
involves no rounding at the magnitudes the claims exercise. -/

/-- `millionYears = 1_000_000`. -/
def millionYears : ℚ := 1000000

/-- The tail of `readBrLen` once a numeric value has been parsed:
negative values are rejected, then values below one year are clamped up
to exactly one year (`1.0 / millionYears` million years). -/
def readBrLenVal (v : ℚ) : Except Err ℚ :=
  if v < 0 then .error .addInvalidBrLen
  else if v < 1 / millionYears then .ok (1 / millionYears)
  else .ok v

/-- Conversion applied at the call sites of `readBrLen`:
`int64(bl * millionYears)`.  Go's float-to-int conversion truncates
toward zero; on the non-negative values `readBrLen` returns this is the
floor. -/
def brLenYears (v : ℚ) : Int := ⌊v * millionYears⌋

/-! ## Basic lemmas about the arena and the map model -/

theorem nodeAt_eq_get (t : Tree) (r : Ref) (h : r < t.arena.length) :
    t.nodeAt r = t.arena.get ⟨r, h⟩ := by
  simp [Tree.nodeAt, List.getElem?_eq_getElem h, List.get_eq_getElem]

theorem arena_setNode (t : Tree) (r : Ref) (n : GoNode) :
    (t.setNode r n).arena = t.arena.set r n := rfl

theorem length_setNode (t : Tree) (r : Ref) (n : GoNode) :
    (t.setNode r n).arena.length = t.arena.length := by
  simp [Tree.setNode]

theorem nodeAt_setNode_self (t : Tree) (r : Ref) (n : GoNode)
    (h : r < t.arena.length) : (t.setNode r n).nodeAt r = n := by
  simp [Tree.setNode, Tree.nodeAt, List.getElem?_set_self h]

theorem nodeAt_setNode_other (t : Tree) (r r' : Ref) (n : GoNode)
    (h : r' ≠ r) : (t.setNode r n).nodeAt r' = t.nodeAt r' := by
  simp [Tree.setNode, Tree.nodeAt, List.getElem?_set_ne (Ne.symm h)]

theorem nodeAt_append_lt (t : Tree) (l : List GoNode) (r : Ref)
    (h : r < t.arena.length) (name' : String) (nodes' : List (Int × Ref))
    (taxa' : List (String × Ref)) (root' : Ref) :
    Tree.nodeAt { name := name', arena := t.arena ++ l, nodes := nodes',
                  taxa := taxa', root := root' } r = t.nodeAt r := by
  simp [Tree.nodeAt, List.getElem?_append, h]

theorem nodeAt_mk_append_self (name' : String) (arena' : List GoNode) (n : GoNode)
    (nodes' : List (Int × Ref)) (taxa' : List (String × Ref)) (root' : Ref) :
    Tree.nodeAt { name := name', arena := arena' ++ [n], nodes := nodes',
                  taxa := taxa', root := root' } arena'.length = n := by
  simp [Tree.nodeAt, List.getElem?_append]

theorem lookupA_insertA_self {α β : Type} [DecidableEq α] (m : List (α × β)) (k : α) (v : β) :
    lookupA (insertA m k v) k = some v := by
  induction m with
  | nil => simp [insertA, lookupA]
  | cons kv rest ih =>
    by_cases h : kv.1 = k
    · simp [insertA, lookupA, h]
    · simp [insertA, lookupA, h, ih]

theorem lookupA_insertA_other {α β : Type} [DecidableEq α] (m : List (α × β)) (k k' : α)
    (v : β) (h : k' ≠ k) : lookupA (insertA m k v) k' = lookupA m k' := by
  induction m with
  | nil => simp [insertA, lookupA, Ne.symm h]
  | cons kv rest ih =>
    by_cases hk : kv.1 = k
    · subst hk
      simp [insertA, lookupA, Ne.symm h]
    · by_cases hk' : kv.1 = k'
      · simp only [insertA, if_neg hk, lookupA, if_pos hk']
      · simp only [insertA, if_neg hk, lookupA, if_neg hk', ih]

theorem lookupA_eq_none_of_not_mem_keys {α β : Type} [DecidableEq α] (m : List (α × β))
    (k : α) (h : k ∉ m.map Prod.fst) : lookupA m k = none := by
  induction m with
  | nil => simp [lookupA]
  | cons kv rest ih =>
    simp only [List.map_cons, List.mem_cons, not_or] at h
    have hne : ¬ kv.1 = k := fun he => h.1 (Eq.symm he)
    simp only [lookupA, if_neg hne]
    exact ih h.2

theorem lookupA_eraseA_self {α β : Type} [DecidableEq α] (m : List (α × β)) (k : α)
    (hnd : (m.map Prod.fst).Nodup) : lookupA (eraseA m k) k = none := by
  induction m with
  | nil => simp [eraseA, lookupA]
  | cons kv rest ih =>
    simp only [List.map_cons, List.nodup_cons] at hnd
    by_cases h : kv.1 = k
    · subst h
      simp only [eraseA, if_pos rfl]
      exact lookupA_eq_none_of_not_mem_keys rest kv.1 hnd.1
    · simp only [eraseA, if_neg h, lookupA, if_neg h]
      exact ih hnd.2

theorem lookupA_eraseA_other {α β : Type} [DecidableEq α] (m : List (α × β)) (k k' : α)
    (h : k' ≠ k) : lookupA (eraseA m k) k' = lookupA m k' := by
  induction m with
  | nil => simp [eraseA, lookupA]
  | cons kv rest ih =>
    by_cases hk : kv.1 = k
    · subst hk
      rw [show eraseA (kv :: rest) kv.1 = rest by simp [eraseA]]
      simp only [lookupA]
      rw [if_neg (fun he => h (Eq.symm he))]
    · by_cases hk' : kv.1 = k'
      · simp only [eraseA, if_neg hk, lookupA, if_pos hk']
      · simp only [eraseA, if_neg hk, lookupA, if_neg hk', ih]

theorem mem_keys_insertA {α β : Type} [DecidableEq α] (m : List (α × β)) (k : α) (v : β)
    (a : α) (h : a ∈ (insertA m k v).map Prod.fst) :
    a ∈ m.map Prod.fst ∨ a = k := by
  induction m with
  | nil =>
    simp only [insertA, List.map_cons, List.map_nil, List.mem_singleton] at h
    exact Or.inr h
  | cons kv rest ih =>
    by_cases hk : kv.1 = k
    · simp only [insertA, if_pos hk, List.map_cons, List.mem_cons] at h
      rcases h with h | h
      · exact Or.inr h
      · exact Or.inl (by simp [h])
    · simp only [insertA, if_neg hk, List.map_cons, List.mem_cons] at h
      rcases h with h | h
      · exact Or.inl (by simp [h])
      · rcases ih h with h1 | h1
        · exact Or.inl (by simp [h1])
        · exact Or.inr h1

theorem keys_insertA {α β : Type} [DecidableEq α] (m : List (α × β)) (k : α) (v : β)
    (hnd : (m.map Prod.fst).Nodup) : ((insertA m k v).map Prod.fst).Nodup := by
  induction m with
  | nil => simp [insertA]
  | cons kv rest ih =>
    simp only [List.map_cons, List.nodup_cons] at hnd
    by_cases h : kv.1 = k
    · subst h
      rw [show insertA (kv :: rest) kv.1 v = (kv.1, v) :: rest by simp [insertA]]
      simp only [List.map_cons, List.nodup_cons]
      exact hnd
    · simp only [insertA, if_neg h, List.map_cons, List.nodup_cons]
      refine ⟨fun hmem => ?_, ih hnd.2⟩
      rcases mem_keys_insertA rest k v kv.1 hmem with h1 | h1
      · exact hnd.1 h1
      · exact h h1

theorem keys_eraseA {α β : Type} [DecidableEq α] (m : List (α × β)) (k : α)
    (hnd : (m.map Prod.fst).Nodup) : ((eraseA m k).map Prod.fst).Nodup := by
  induction m with
  | nil => simp [eraseA]
  | cons kv rest ih =>
    simp only [List.map_cons, List.nodup_cons] at hnd
    by_cases h : kv.1 = k
    · simpa [eraseA, h] using hnd.2
    · simp only [eraseA, if_neg h, List.map_cons, List.nodup_cons]
      refine ⟨fun hmem => ?_, ih hnd.2⟩
      exact hnd.1 (by
        clear ih hnd
        induction rest with
        | nil => simp [eraseA] at hmem
        | cons kv' rest' ih' =>
          by_cases h' : kv'.1 = k
          · simp only [eraseA, if_pos h'] at hmem
            exact List.mem_cons_of_mem _ hmem
          · simp only [eraseA, if_neg h', List.map_cons, List.mem_cons] at hmem
            rcases hmem with h1 | h1
            · exact List.mem_cons.2 (Or.inl h1)
            · exact List.mem_cons_of_mem _ (ih' h1))

theorem nodeAt_setNode_ge (t : Tree) (r : Ref) (n : GoNode)
    (h : t.arena.length ≤ r) : (t.setNode r n) = t := by
  cases t
  simp [Tree.setNode, List.set_eq_of_length_le h]

theorem replaceFirst_decomp (l1 l2 : List Ref) (a b : Ref) (h : a ∉ l1) :
    replaceFirst (l1 ++ a :: l2) a b = l1 ++ b :: l2 := by
  induction l1 with
  | nil => simp [replaceFirst]
  | cons x xs ih =>
    simp only [List.mem_cons, not_or] at h
    have hxa : ¬ x = a := fun he => h.1 (Eq.symm he)
    show replaceFirst (x :: (xs ++ a :: l2)) a b = x :: (xs ++ b :: l2)
    simp only [replaceFirst, if_neg hxa]
    rw [ih h.2]

/-- `del` never touches the arena: it only removes map entries. -/
theorem delF_arena (fuel : Nat) : ∀ (t : Tree) (r : Ref), (delF fuel t r).arena = t.arena := by
  induction fuel with
  | zero => intro t r; rfl
  | succ fuel ih =>
    intro t r
    simp only [delF]
    have hfold : ∀ (l : List Ref) (u : Tree),
        (l.foldl (fun acc c => delF fuel acc c) u).arena = u.arena := by
      intro l
      induction l with
      | nil => intro u; rfl
      | cons c cs ihl =>
        intro u
        rw [List.foldl_cons, ihl, ih]
    rw [hfold]

theorem delF_nodeAt (fuel : Nat) (t : Tree) (r x : Ref) :
    (delF fuel t r).nodeAt x = t.nodeAt x := by
  unfold Tree.nodeAt
  rw [delF_arena]

theorem delF_root (fuel : Nat) : ∀ (t : Tree) (r : Ref), (delF fuel t r).root = t.root := by
  induction fuel with
  | zero => intro t r; rfl
  | succ fuel ih =>
    intro t r
    simp only [delF]
    have hfold : ∀ (l : List Ref) (u : Tree),
        (l.foldl (fun acc c => delF fuel acc c) u).root = u.root := by
      intro l
      induction l with
      | nil => intro u; rfl
      | cons c cs ihl =>
        intro u
        rw [List.foldl_cons, ihl, ih]
    rw [hfold]

theorem foldl_append_init {α β : Type} (f : β → List α) (l : List β) :
    ∀ (L0 : List α),
    l.foldl (fun acc c => acc ++ f c) L0 = L0 ++ l.foldl (fun acc c => acc ++ f c) [] := by
  induction l with
  | nil => intro L0; simp
  | cons c cs ih =>
    intro L0
    simp only [List.foldl_cons, List.nil_append]
    rw [ih (L0 ++ f c), ih (f c), List.append_assoc]

theorem mem_foldl_append {α β : Type} (f : β → List α) (x : α) (c : β) :
    ∀ (l : List β) (L0 : List α), c ∈ l → x ∈ f c →
    x ∈ l.foldl (fun acc d => acc ++ f d) L0 := by
  intro l
  induction l with
  | nil => intro L0 hc _; cases hc
  | cons d ds ih =>
    intro L0 hc hx
    rw [List.foldl_cons]
    rcases List.mem_cons.1 hc with h | h
    · subst h
      rw [foldl_append_init]
      exact List.mem_append.2 (Or.inl (List.mem_append.2 (Or.inr hx)))
    · exact ih _ h hx

theorem self_mem_foldl_append {α β : Type} (f : β → List α) (l : List β) (L0 : List α)
    (x : α) (hx : x ∈ L0) : x ∈ l.foldl (fun acc d => acc ++ f d) L0 := by
  rw [foldl_append_init]
  exact List.mem_append.2 (Or.inl hx)

theorem foldl_congr_mem {α β : Type} (l : List α) (f g : β → α → β)
    (h : ∀ b, ∀ x ∈ l, f b x = g b x) : ∀ (b0 : β), l.foldl f b0 = l.foldl g b0 := by
  induction l with
  | nil => intro b0; rfl
  | cons x xs ih =>
    intro b0
    rw [List.foldl_cons, List.foldl_cons, h b0 x (List.mem_cons_self x xs)]
    exact ih (fun b y hy => h b y (List.mem_cons_of_mem x hy)) _

theorem nodeAt_arena_congr (t u : Tree) (h : u.arena = t.arena) (x : Ref) :
    u.nodeAt x = t.nodeAt x := by
  unfold Tree.nodeAt
  rw [h]

theorem delRefsF_arena_congr (fuel : Nat) : ∀ (t u : Tree) (r : Ref),
    u.arena = t.arena → delRefsF fuel u r = delRefsF fuel t r := by
  induction fuel with
  | zero => intro t u r _; rfl
  | succ fuel ih =>
    intro t u r h
    simp only [delRefsF, nodeAt_arena_congr t u h]
    have hfold : ∀ (l : List Ref) (L : List Ref),
        l.foldl (fun acc c => acc ++ delRefsF fuel u c) L =
        l.foldl (fun acc c => acc ++ delRefsF fuel t c) L := by
      intro l
      induction l with
      | nil => intro L; rfl
      | cons c cs ihl =>
        intro L
        rw [List.foldl_cons, List.foldl_cons, ih t u c h, ihl]
    rw [hfold]

/-- The visit order of `del` is stable under changes to the tree that do
not touch the nodes actually visited. -/
theorem delRefsF_congr (fuel : Nat) : ∀ (t u : Tree) (r : Ref),
    (∀ x ∈ delRefsF fuel t r, u.nodeAt x = t.nodeAt x) →
    delRefsF fuel u r = delRefsF fuel t r := by
  induction fuel with
  | zero => intro t u r _; rfl
  | succ fuel ih =>
    intro t u r h
    have hr : r ∈ delRefsF (fuel + 1) t r := by
      simp only [delRefsF]
      exact self_mem_foldl_append _ _ _ _ (List.mem_singleton.2 rfl)
    have hur := h r hr
    simp only [delRefsF, hur]
    have hfold : ∀ (l : List Ref),
        (∀ c ∈ l, ∀ x ∈ delRefsF fuel t c, u.nodeAt x = t.nodeAt x) →
        ∀ (L : List Ref),
        l.foldl (fun acc c => acc ++ delRefsF fuel u c) L =
        l.foldl (fun acc c => acc ++ delRefsF fuel t c) L := by
      intro l
      induction l with
      | nil => intro _ L; rfl
      | cons c cs ihl =>
        intro hl L
        rw [List.foldl_cons, List.foldl_cons,
          ih t u c (hl c (List.mem_cons_self c cs)),
          ihl (fun d hd => hl d (List.mem_cons_of_mem c hd))]
    refine hfold _ ?_ _
    intro c hc x hx
    refine h x ?_
    simp only [delRefsF]
    exact mem_foldl_append _ x c _ _ hc hx

/-- `del`'s effect on the `nodes` map: it erases the ids of the visited
refs, in visit order. -/
theorem delF_nodes (fuel : Nat) : ∀ (t : Tree) (r : Ref),
    (delF fuel t r).nodes =
      (delRefsF fuel t r).foldl (fun m x => eraseA m (t.nodeAt x).id) t.nodes := by
  induction fuel with
  | zero => intro t r; rfl
  | succ fuel ih =>
    intro t r
    have hfold : ∀ (l : List Ref) (u : Tree), u.arena = t.arena →
        (l.foldl (fun acc c => delF fuel acc c) u).nodes =
          (l.foldl (fun acc c => acc ++ delRefsF fuel t c) []).foldl
            (fun m x => eraseA m (t.nodeAt x).id) u.nodes := by
      intro l
      induction l with
      | nil => intro u _; rfl
      | cons c cs ihl =>
        intro u hu
        rw [List.foldl_cons, List.foldl_cons, List.nil_append]
        rw [foldl_append_init, List.foldl_append]
        rw [ihl (delF fuel u c) (by rw [delF_arena, hu])]
        have hfun : (fun (m : List (Int × Ref)) (x : Ref) => eraseA m (u.nodeAt x).id) =
            (fun m x => eraseA m (t.nodeAt x).id) := by
          funext m x
          rw [nodeAt_arena_congr t u hu]
        rw [ih u c, hfun, delRefsF_arena_congr fuel t u c hu]
    simp only [delF, delRefsF]
    rw [foldl_append_init, List.foldl_append, List.foldl_cons, List.foldl_nil]
    exact hfold _ _ rfl

theorem lookupA_foldl_eraseA {β : Type} (ids : List Int) :
    ∀ (m : List (Int × β)) (k : Int), (m.map Prod.fst).Nodup →
    lookupA (ids.foldl (fun m i => eraseA m i) m) k =
      if k ∈ ids then none else lookupA m k := by
  induction ids with
  | nil => intro m k _; simp
  | cons i is ih =>
    intro m k hnd
    rw [List.foldl_cons, ih (eraseA m i) k (keys_eraseA m i hnd)]
    by_cases hk : k ∈ is
    · rw [if_pos hk, if_pos (List.mem_cons_of_mem i hk)]
    · rw [if_neg hk]
      by_cases hki : k = i
      · subst hki
        rw [if_pos (List.mem_cons_self k is)]
        exact lookupA_eraseA_self m k hnd
      · rw [if_neg (by simp [List.mem_cons, hki, hk])]
        exact lookupA_eraseA_other m i k hki

theorem foldl_eraseA_nodeAt (t : Tree) (l : List Ref) {β : Type} :
    ∀ (m : List (Int × β)),
    l.foldl (fun m x => eraseA m (t.nodeAt x).id) m =
    (l.map (fun x => (t.nodeAt x).id)).foldl (fun m i => eraseA m i) m := by
  induction l with
  | nil => intro m; rfl
  | cons x xs ih =>
    intro m
    rw [List.map_cons, List.foldl_cons, List.foldl_cons, ih]

theorem nodeAt_modify_self (t : Tree) (r : Ref) (f : GoNode → GoNode)
    (h : r < t.arena.length) : (t.modifyNode r f).nodeAt r = f (t.nodeAt r) := by
  rw [Tree.modifyNode, nodeAt_setNode_self _ _ _ h]

theorem nodeAt_modify_other (t : Tree) (r r' : Ref) (f : GoNode → GoNode)
    (h : r' ≠ r) : (t.modifyNode r f).nodeAt r' = t.nodeAt r' := by
  rw [Tree.modifyNode, nodeAt_setNode_other _ _ _ _ h]

theorem length_modify (t : Tree) (r : Ref) (f : GoNode → GoNode) :
    (t.modifyNode r f).arena.length = t.arena.length := by
  simp [Tree.modifyNode, Tree.setNode]

theorem nodes_modify (t : Tree) (r : Ref) (f : GoNode → GoNode) :
    (t.modifyNode r f).nodes = t.nodes := rfl

theorem root_modify (t : Tree) (r : Ref) (f : GoNode → GoNode) :
    (t.modifyNode r f).root = t.root := rfl

/-! ## Symbolic execution of the successful mutators -/

theorem getN_cases (l : List GoNode) (r : Ref) :
    (l[r]?).getD nullNode = if h : r < l.length then l.get ⟨r, h⟩ else nullNode := by
  by_cases h : r < l.length
  · simp [List.getElem?_eq_getElem h, List.get_eq_getElem, h]
  · simp [List.getElem?_eq_none (Nat.le_of_not_lt h), h]

/-- Effect of a successful `Add`: the new node is appended to the arena
(with the stated fields), the parent gains it as last child, and nothing
else changes. -/
theorem add_ok (t : Tree) (id b : Int) (nm : String) (pr : Ref)
    (hLook : lookupA t.nodes id = some pr)
    (hFresh : ¬(canon nm ≠ "" ∧ (lookupA t.taxa (canon nm)).isSome))
    (hAgeOk : ¬((t.nodeAt pr).age - b < 0))
    (hb : pr < t.arena.length) :
    ∃ t', t.Add id b nm = (t', .ok (t.nodes.length : Int)) ∧
      t'.nodeAt t.arena.length =
        { id := (t.nodes.length : Int), parent := some pr,
          age := (t.nodeAt pr).age - b, taxon := canon nm, brLen := b, children := [] } ∧
      t'.nodeAt pr =
        { t.nodeAt pr with children := (t.nodeAt pr).children ++ [t.arena.length] } ∧
      (∀ r, r ≠ t.arena.length → r ≠ pr → t'.nodeAt r = t.nodeAt r) ∧
      t'.arena.length = t.arena.length + 1 ∧
      lookupA t'.nodes (t.nodes.length : Int) = some t.arena.length ∧
      t'.root = t.root := by
  have hpl : ¬ pr = t.arena.length := Nat.ne_of_lt hb
  have hlp : ¬ t.arena.length = pr := fun h => hpl (Eq.symm h)
  simp only [Tree.Add, hLook, if_neg hFresh, if_neg hAgeOk]
  refine ⟨_, rfl, ?_, ?_, ?_, ?_, ?_, rfl⟩
  · simp only [Tree.modifyNode, Tree.setNode, Tree.nodeAt, List.getElem?_append,
      List.getElem?_set, List.length_set, Nat.lt_irrefl, if_false, Nat.sub_self,
      List.getElem?_cons_zero, Option.getD_some, hlp]
  · simp only [Tree.modifyNode, Tree.setNode, Tree.nodeAt, List.getElem?_append,
      List.getElem?_set, List.length_set, hb, if_true, List.getElem?_cons_zero,
      Option.getD_some]
  · intro r h1 h2
    have h2s : ¬ pr = r := fun h => h2 (Eq.symm h)
    simp only [Tree.modifyNode, Tree.setNode, Tree.nodeAt, List.getElem?_append,
      List.getElem?_set, List.length_set, h2s, if_false]
    by_cases hr : r < t.arena.length
    · simp only [hr, if_true]
    · simp only [hr, if_false]
      have hr1 : ¬ r - t.arena.length = 0 := by
        clear hAgeOk hFresh hLook
        omega
      rw [List.getElem?_eq_none (l := t.arena) (Nat.le_of_not_lt hr)]
      rcases Nat.exists_eq_succ_of_ne_zero hr1 with ⟨k, hk⟩
      rw [hk]
      simp
  · simp only [Tree.modifyNode, Tree.setNode]
    simp
  · exact lookupA_insertA_self _ _ _

/-- Effect of a successful `AddSister`: full description of the new
state.  `t.arena.length` is the new internal parent,
`t.arena.length + 1` the new named node. -/
theorem addSister_ok (t : Tree) (id A B : Int) (nm : String) (sref ppr : Ref)
    (hLook : lookupA t.nodes id = some sref)
    (hRoot : t.root ≠ sref)
    (hFresh : ¬(canon nm ≠ "" ∧ (lookupA t.taxa (canon nm)).isSome))
    (hAge : (t.nodeAt sref).age ≤ A + B)
    (hPar : (t.nodeAt sref).parent = some ppr)
    (hOld : A + B < (t.nodeAt ppr).age)
    (hs : sref < t.arena.length) (hp : ppr < t.arena.length) (hne : ppr ≠ sref) :
    ∃ t' nid, t.AddSister id A B nm = some (t', .ok nid) ∧
      t'.nodeAt t.arena.length =
        { id := (t.nodes.length : Int), parent := some ppr, age := A + B, taxon := "",
          brLen := (t.nodeAt ppr).age - A,
          children := [sref, t.arena.length + 1] } ∧
      t'.nodeAt (t.arena.length + 1) =
        { id := nid, parent := some t.arena.length, age := A, taxon := canon nm,
          brLen := B, children := [] } ∧
      t'.nodeAt sref = { t.nodeAt sref with parent := some t.arena.length } ∧
      t'.nodeAt ppr =
        { t.nodeAt ppr with
          children := replaceFirst (t.nodeAt ppr).children sref t.arena.length } ∧
      (∀ r, r ≠ t.arena.length → r ≠ t.arena.length + 1 → r ≠ sref → r ≠ ppr →
        t'.nodeAt r = t.nodeAt r) ∧
      nid = ((insertA t.nodes (t.nodes.length : Int) t.arena.length).length : Int) ∧
      lookupA t'.nodes nid = some (t.arena.length + 1) ∧
      t'.arena.length = t.arena.length + 2 ∧
      t'.root = t.root := by
  have hsp : ¬ sref = t.arena.length := Nat.ne_of_lt hs
  have hps : ¬ t.arena.length = sref := fun h => hsp (Eq.symm h)
  have hpp : ¬ ppr = t.arena.length := Nat.ne_of_lt hp
  have hplp : ¬ t.arena.length = ppr := fun h => hpp (Eq.symm h)
  have hs1 : sref < t.arena.length + 1 := Nat.lt_succ_of_lt hs
  have hp1 : ppr < t.arena.length + 1 := Nat.lt_succ_of_lt hp
  have hsp1 : ¬ sref = t.arena.length + 1 := Nat.ne_of_lt hs1
  have hpp1 : ¬ ppr = t.arena.length + 1 := Nat.ne_of_lt hp1
  have hnes : ¬ sref = ppr := fun h => hne (Eq.symm h)
  have hlen1 : t.arena.length < t.arena.length + 1 := Nat.lt_succ_self _
  have hlen2 : t.arena.length < t.arena.length + 1 + 1 := Nat.lt_succ_of_lt hlen1
  have hlenne : ¬ t.arena.length = t.arena.length + 1 := Nat.ne_of_lt hlen1
  have hlenne2 : ¬ t.arena.length + 1 = t.arena.length := fun h => hlenne (Eq.symm h)
  simp only [Tree.AddSister, hLook, hPar, if_neg hRoot, if_neg hFresh,
    if_neg (not_lt.2 hAge), if_neg (not_le.2 hOld)]
  refine ⟨_, _, rfl, ?_, ?_, ?_, ?_, ?_, rfl, ?_, ?_, rfl⟩
  all_goals
    try (intro r h1 h2 h3 h4
         have h1s : ¬ t.arena.length = r := fun h => h1 (Eq.symm h)
         have h2s : ¬ t.arena.length + 1 = r := fun h => h2 (Eq.symm h)
         have h3s : ¬ sref = r := fun h => h3 (Eq.symm h)
         have h4s : ¬ ppr = r := fun h => h4 (Eq.symm h))
  all_goals
    simp only [Tree.modifyNode, Tree.setNode, Tree.nodeAt, List.getElem?_append,
      List.getElem?_set, List.length_set, List.length_append, List.length_cons,
      List.length_nil, List.length_singleton, List.getElem?_cons_zero, Option.getD_some,
      Nat.lt_irrefl, Nat.sub_self, if_false, if_true,
      hsp, hps, hpp, hplp, hs, hp, hs1, hp1, hsp1, hpp1, hne, hnes,
      hlen1, hlen2, hlenne, hlenne2]
  · simp
  · simp only [h1s, h3s, h4s, if_false, Nat.zero_add]
    by_cases hr : r < t.arena.length
    · simp only [hr, if_true, Nat.lt_succ_of_lt hr, if_pos]
    · have h2b : ¬ r < t.arena.length + 1 := by
        clear hAge hOld hPar hLook hRoot hFresh
        omega
      have h3b : 1 ≤ r - (t.arena.length + 1) := by
        clear hAge hOld hPar hLook hRoot hFresh
        omega
      simp only [h2b, if_false]
      rw [List.getElem?_eq_none (l := t.arena) (Nat.le_of_not_lt hr),
        List.getElem?_eq_none (by simpa using h3b)]
  · exact lookupA_insertA_self _ _ _
/-- Effect of `Delete` on a node that shares a non-root binary parent:
the surviving sibling is re-parented onto the grandparent in the
parent's slot; ages and branch lengths of surviving nodes are untouched
(`del` only removes map entries, `delF_arena`). -/
theorem delete_collapse_core (t : Tree) (id : Int) (nref pref ancref s : Ref)
    (hLook : lookupA t.nodes id = some nref)
    (hParN : (t.nodeAt nref).parent = some pref)
    (hLen : ¬ 2 < (t.nodeAt pref).children.length)
    (hParP : (t.nodeAt pref).parent = some ancref)
    (hPA : pref ∈ (t.nodeAt ancref).children)
    (hFind : (t.nodeAt pref).children.find? (fun c => c ≠ nref) = some s)
    (hsb : s < t.arena.length) (hab : ancref < t.arena.length)
    (_hpb : pref < t.arena.length)
    (hsa : s ≠ ancref) (hsp2 : s ≠ pref) (hap : ancref ≠ pref) :
    ∃ u, t.Delete id = some u ∧
      u.nodeAt s = { t.nodeAt s with parent := some ancref } ∧
      u.nodeAt ancref =
        { t.nodeAt ancref with
          children := replaceFirst (t.nodeAt ancref).children pref s } ∧
      (∀ r, r ≠ s → r ≠ ancref → r ≠ pref → u.nodeAt r = t.nodeAt r) ∧
      u.root = t.root ∧
      u.arena.length = t.arena.length := by
  have hsa' : ¬ ancref = s := fun h => hsa (Eq.symm h)
  have hsp' : ¬ pref = s := fun h => hsp2 (Eq.symm h)
  have hap' : ¬ pref = ancref := fun h => hap (Eq.symm h)
  simp only [Tree.Delete, hLook, hParN, hParP, if_neg hLen, if_pos hPA, hFind]
  refine ⟨_, rfl, ?_, ?_, ?_, ?_, ?_⟩
  · rw [delF_nodeAt]
    simp only [Tree.modifyNode, Tree.setNode, Tree.nodeAt, List.getElem?_set,
      List.length_set, hsp', hsa', hsa, hsp2, hap, hap', hsb, if_true, if_false,
      Option.getD_some]
  · rw [delF_nodeAt]
    simp only [Tree.modifyNode, Tree.setNode, Tree.nodeAt, List.getElem?_set,
      List.length_set, hsa', hap', hsa, hsp2, hap, hab, if_true, if_false,
      Option.getD_some]
  · intro r h1 h2 h3
    have h1' : ¬ s = r := fun h => h1 (Eq.symm h)
    have h2' : ¬ ancref = r := fun h => h2 (Eq.symm h)
    have h3' : ¬ pref = r := fun h => h3 (Eq.symm h)
    rw [delF_nodeAt]
    simp only [Tree.modifyNode, Tree.setNode, Tree.nodeAt, List.getElem?_set,
      List.length_set, h1', h2', h3', if_false]
  · rw [delF_root]
    simp [Tree.modifyNode, Tree.setNode]
  · rw [delF_arena]
    simp [Tree.modifyNode, Tree.setNode]

/-- A successful `Set` changes one `age` field and nothing else; in
particular every stored branch length is untouched. -/
theorem set_brLen_preserved (t : Tree) (id age : Int) (t' : Tree)
    (h : t.Set id age = (t', none)) :
    ∀ x, (t'.nodeAt x).brLen = (t.nodeAt x).brLen := by
  intro x
  unfold Tree.Set at h
  split at h
  · obtain rfl : t = t' := congrArg Prod.fst h
    rfl
  · rename_i r0 heq
    have hfin : ∀ pp : Option Ref,
        t.setNode r0 { t.nodeAt r0 with age := age, parent := pp } = t' →
        (t'.nodeAt x).brLen = (t.nodeAt x).brLen := by
      intro pp hh
      subst hh
      by_cases hx : x = r0
      · subst hx
        by_cases hb : x < t.arena.length
        · rw [nodeAt_setNode_self _ _ _ hb]
        · rw [nodeAt_setNode_ge _ _ _ (Nat.le_of_not_lt hb)]
      · rw [nodeAt_setNode_other _ _ _ _ hx]
    cases hpar : (t.nodeAt r0).parent with
    | none =>
      simp only [hpar] at h
      split at h
      · have h2 := congrArg Prod.snd h
        simp at h2
      · split at h
        · have h2 := congrArg Prod.snd h
          simp at h2
        · exact hfin _ (congrArg Prod.fst h)
    | some pr =>
      simp only [hpar] at h
      split at h
      · have h2 := congrArg Prod.snd h
        simp at h2
      · split at h
        · have h2 := congrArg Prod.snd h
          simp at h2
        · exact hfin _ (congrArg Prod.fst h)

/-! ## Claim C8: Newick branch-length floor -/

/-- **C8**.  The Newick parser converts branch lengths (million-year
values) to integer years by multiplying by 1,000,000 and truncating,
except that any parsed non-negative value below one year — in particular
an exact zero, or the tiny positive value a literal such as `1e-25`
parses to — is clamped to exactly 1 year, never 0: (1) for every parsed
value `v ≥ 0`, `readBrLen` succeeds with a value converting to
`max 1 ⌊v * 1_000_000⌋` years; (2) the rational value `1e-25` is clamped
to `1/1_000_000` million years, i.e. exactly 1 year; (3) the conversion
of a successfully read branch length is never below one year. -/
theorem newick_brLen_floor :
    (∀ v : ℚ, 0 ≤ v →
      ∃ w, readBrLenVal v = .ok w ∧ brLenYears w = max 1 ⌊v * millionYears⌋) ∧
    (readBrLenVal (1 / 10 ^ 25) = .ok (1 / millionYears) ∧
      brLenYears (1 / millionYears) = 1) ∧
    (∀ v w : ℚ, 0 ≤ v → readBrLenVal v = .ok w → 1 ≤ brLenYears w) := by
  have hmain : ∀ v : ℚ, 0 ≤ v →
      ∃ w, readBrLenVal v = .ok w ∧ brLenYears w = max 1 ⌊v * millionYears⌋ := by
    intro v hv
    by_cases h : v < 1 / millionYears
    · refine ⟨1 / millionYears, ?_, ?_⟩
      · unfold readBrLenVal
        rw [if_neg (not_lt.2 hv), if_pos h]
      · have h0 : ⌊v * millionYears⌋ = 0 := by
          rw [Int.floor_eq_zero_iff]
          constructor
          · exact mul_nonneg hv (by norm_num [millionYears])
          · have : v * millionYears < (1 / millionYears) * millionYears := by
              apply mul_lt_mul_of_pos_right h
              norm_num [millionYears]
            calc v * millionYears < (1 / millionYears) * millionYears := this
              _ = 1 := by norm_num [millionYears]
        rw [h0]
        norm_num [brLenYears, millionYears]
    · refine ⟨v, ?_, ?_⟩
      · unfold readBrLenVal
        rw [if_neg (not_lt.2 hv), if_neg h]
      · have h1 : (1 : ℚ) ≤ v * millionYears := by
          have := mul_le_mul_of_nonneg_right (not_lt.1 h) (by norm_num [millionYears] : (0:ℚ) ≤ millionYears)
          calc (1 : ℚ) = (1 / millionYears) * millionYears := by norm_num [millionYears]
            _ ≤ v * millionYears := this
        have : (1 : ℤ) ≤ ⌊v * millionYears⌋ := by
          exact_mod_cast Int.le_floor.2 (by exact_mod_cast h1)
        simp [brLenYears, max_eq_right this]
  refine ⟨hmain, ⟨?_, ?_⟩, ?_⟩
  · norm_num [readBrLenVal, millionYears]
  · norm_num [brLenYears, millionYears]
  · intro v w hv hw
    rcases hmain v hv with ⟨w', hw', hy⟩
    rw [hw] at hw'
    cases hw'
    rw [hy]
    exact le_max_left _ _

/-- Witness for C8: the clamp applied to the parsed value `1e-25`
produces exactly one year. -/
theorem newick_brLen_floor_witness :
    (0 : ℚ) ≤ 1 / 10 ^ 25 ∧ 1 ≤ brLenYears (1 / millionYears) :=
  ⟨by norm_num,
   newick_brLen_floor.2.2 (1 / 10 ^ 25) (1 / millionYears) (by norm_num)
     (by norm_num [readBrLenVal, millionYears])⟩

/-! ## Claim C10: `Delete` is not total at the root -/

/-- **C10**.  `Delete` reads `p.children` without checking that the node
has a parent: (1) on any tree whose root has no parent (every
well-formed tree), calling `Delete` with an ID that resolves to the root
reaches the nil-parent dereference (modelled as `none`); (2) `Delete` is
total (returns a tree) when the ID is absent from the `nodes` map — the
no-op branch — or (3) when the ID resolves to a node that has a
parent. -/
theorem delete_root_not_total :
    (∀ (t : Tree) (id : Int),
        lookupA t.nodes id = some t.root → (t.nodeAt t.root).parent = none →
        t.Delete id = none) ∧
    (∀ (t : Tree) (id : Int),
        lookupA t.nodes id = none → t.Delete id = some t) ∧
    (∀ (t : Tree) (id : Int) (r pr : Ref),
        lookupA t.nodes id = some r → (t.nodeAt r).parent = some pr →
        ∃ u, t.Delete id = some u) := by
  refine ⟨?_, ?_, ?_⟩
  · intro t id h1 h2
    simp [Tree.Delete, h1, h2]
  · intro t id h1
    simp [Tree.Delete, h1]
  · intro t id r pr h1 h2
    simp only [Tree.Delete, h1, h2]
    split
    · exact ⟨_, rfl⟩
    · split
      · split <;> exact ⟨_, rfl⟩
      · exact ⟨_, rfl⟩

/-- Witness tree for C10: the two-terminal tree
`(New "w" 10).Add 0 1 "a" |>.Add 0 2 "b"`. -/
def wTree : Tree := (((New "w" 10).Add 0 1 "a").1.Add 0 2 "b").1

/-- Witness for C10: on a concrete well-formed tree, `Delete 0` (the
root's ID) crashes while `Delete 99` (unknown) and `Delete 1` (a
non-root node) return trees. -/
theorem delete_root_not_total_witness :
    wTree.Delete 0 = none ∧ wTree.Delete 99 = some wTree ∧
    (∃ u, wTree.Delete 1 = some u) :=
  ⟨delete_root_not_total.1 wTree 0 (by decide) (by decide),
   delete_root_not_total.2.1 wTree 99 (by decide),
   delete_root_not_total.2.2 wTree 1 1 0 (by decide) (by decide)⟩

/-! ## Claim C9: `SetName` semantics (code bug in the clear branch) -/

/-- The failing input for C9: a three-node tree whose internal root is
named `R`. -/
def c9tree : Tree :=
  let t0 := New "t" 235000000
  let t1 := (t0.Add 0 5000000 "A").1
  let t2 := (t1.Add 0 1000000 "B").1
  (t2.SetName 0 "R").1

/-- **C9** (code-bug evidence).  `SetName(0, "")` on the named internal
root of `c9tree` returns success and removes the name from the `taxa`
index (so `Taxa` and `TaxNode` no longer resolve it, as the claim
states), but the node's own `taxon` field survives: `Taxon 0` still
reports `"R"` instead of the empty string the claim (and the function's
own documentation, "removing any previous name of the node") requires.
The source's clear branch deletes the `taxa` entry and returns without
ever assigning `n.taxon = ""`.  The other two behaviors the claim states
hold on this input: clearing a terminal fails with `UnnamedTerminal`,
and setting a name already used by a distinct node fails with
`RepeatedTaxon`. -/
theorem setName_clear_internal_bug :
    (c9tree.SetName 0 "").2 = none ∧
    ((c9tree.SetName 0 "").1).Taxon 0 = "R" ∧
    ((c9tree.SetName 0 "").1).TaxNode "R" = none ∧
    "R" ∉ ((c9tree.SetName 0 "").1).Taxa ∧
    (c9tree.SetName 1 "").2 = some .valUnnamedTerm ∧
    (c9tree.SetName 1 "").1 = c9tree ∧
    (c9tree.SetName 1 "B").2 = some .addRepeated := by decide

/-! ## Claim C2: branch-length cache consistency (fails on the code) -/

/-- C2 counterexample trees: small trees built by `New`/`Add`. -/
def c2base : Tree := (((New "t" 100).Add 0 10 "a").1.Add 0 5 "b").1

/-- C2 counterexample tree for the `Delete` part. -/
def c2del : Tree :=
  (((((New "t" 100).Add 0 10 "a").1.Add 1 10 "c").1.Add 1 20 "d").1.Add 0 5 "b").1

/-- **C2** (counterexample).  The cached branch length does *not* equal
`age(parent) - age(self)` after every mutator call: (1) after
`AddSister(1, 80, 10, "c")` on `c2base` the new internal parent (arena
node 3, a live non-root node of the tree) has cached branch length 20
while `age(parent) - age(self) = 10`; (2) after `Set(1, 95)` node 1
keeps its stale cache 10 while the age difference is 5; (3) after
`Delete(2)` on `c2del` (which re-parents surviving sibling 3 onto the
grandparent) node 3 keeps its stale cache 20 while the age difference
is 30. -/
theorem brLen_cache_counterexample :
    (c2base.AddSister 1 80 10 "c").map (fun p => p.2) = some (.ok 4) ∧
    (c2base.AddSister 1 80 10 "c").map
        (fun p => (lookupA p.1.nodes 3, (p.1.nodeAt 3).parent, (p.1.nodeAt 3).brLen,
          (p.1.nodeAt 0).age - (p.1.nodeAt 3).age)) =
      some (some 3, some 0, 20, 10) ∧
    (20 : Int) ≠ 10 ∧
    (c2base.Set 1 95).2 = none ∧
    (lookupA (c2base.Set 1 95).1.nodes 1, ((c2base.Set 1 95).1.nodeAt 1).parent,
        ((c2base.Set 1 95).1.nodeAt 1).brLen,
        ((c2base.Set 1 95).1.nodeAt 0).age - ((c2base.Set 1 95).1.nodeAt 1).age) =
      (some 1, some 0, 10, 5) ∧
    (10 : Int) ≠ 5 ∧
    (c2del.Delete 2).map
        (fun u => (lookupA u.nodes 3, (u.nodeAt 3).parent, (u.nodeAt 3).brLen,
          (u.nodeAt 0).age - (u.nodeAt 3).age)) =
      some (some 3, some 0, 20, 30) ∧
    (20 : Int) ≠ 30 := by decide

/-- **C2** (amended).  What actually holds of the cache: (1) `Add`
creates its node with a consistent cache; (2) `AddSister` creates the
new *taxon* node with a consistent cache, but stores
`age(grandparent) - age(new taxon node)` — exceeding the consistent
value by exactly the branch length argument — in the new internal
parent's cache, and leaves the re-parented sister's cache untouched;
(3) a successful `Set` changes an age in place and updates no cache;
(4) `Delete` of a node with a binary non-root parent re-parents the
surviving sibling onto the grandparent without updating its cache. -/
theorem brLen_cache_amended :
    (∀ (t : Tree) (id b : Int) (nm : String) (pr : Ref),
      lookupA t.nodes id = some pr →
      ¬(canon nm ≠ "" ∧ (lookupA t.taxa (canon nm)).isSome) →
      ¬((t.nodeAt pr).age - b < 0) →
      pr < t.arena.length →
      ((t.Add id b nm).1.nodeAt t.arena.length).brLen =
        ((t.Add id b nm).1.nodeAt pr).age -
          ((t.Add id b nm).1.nodeAt t.arena.length).age) ∧
    (∀ (t : Tree) (id A B : Int) (nm : String) (sref ppr : Ref),
      lookupA t.nodes id = some sref →
      t.root ≠ sref →
      ¬(canon nm ≠ "" ∧ (lookupA t.taxa (canon nm)).isSome) →
      (t.nodeAt sref).age ≤ A + B →
      (t.nodeAt sref).parent = some ppr →
      A + B < (t.nodeAt ppr).age →
      sref < t.arena.length → ppr < t.arena.length → ppr ≠ sref →
      ∃ t' nid, t.AddSister id A B nm = some (t', .ok nid) ∧
        (t'.nodeAt (t.arena.length + 1)).brLen =
          (t'.nodeAt t.arena.length).age - (t'.nodeAt (t.arena.length + 1)).age ∧
        (t'.nodeAt t.arena.length).brLen = (t.nodeAt ppr).age - A ∧
        (t'.nodeAt t.arena.length).parent = some ppr ∧
        (t'.nodeAt ppr).age = (t.nodeAt ppr).age ∧
        (t'.nodeAt t.arena.length).brLen =
          ((t'.nodeAt ppr).age - (t'.nodeAt t.arena.length).age) + B ∧
        (t'.nodeAt sref).brLen = (t.nodeAt sref).brLen) ∧
    (∀ (t : Tree) (id age : Int) (t' : Tree),
      t.Set id age = (t', none) →
      ∀ x, (t'.nodeAt x).brLen = (t.nodeAt x).brLen) ∧
    (∀ (t : Tree) (id : Int) (nref pref ancref s : Ref),
      lookupA t.nodes id = some nref →
      (t.nodeAt nref).parent = some pref →
      ¬ 2 < (t.nodeAt pref).children.length →
      (t.nodeAt pref).parent = some ancref →
      pref ∈ (t.nodeAt ancref).children →
      (t.nodeAt pref).children.find? (fun c => c ≠ nref) = some s →
      s < t.arena.length → ancref < t.arena.length → pref < t.arena.length →
      s ≠ ancref → s ≠ pref → ancref ≠ pref →
      ∃ u, t.Delete id = some u ∧
        (u.nodeAt s).parent = some ancref ∧
        (u.nodeAt s).brLen = (t.nodeAt s).brLen) := by
  refine ⟨?_, ?_, ?_, ?_⟩
  · intro t id b nm pr hLook hFresh hAgeOk hb
    obtain ⟨t', hEq, hNew, hPar, -, -, -, -⟩ :=
      add_ok t id b nm pr hLook hFresh hAgeOk hb
    rw [hEq]
    show (t'.nodeAt t.arena.length).brLen =
      (t'.nodeAt pr).age - (t'.nodeAt t.arena.length).age
    rw [hNew, hPar]
    ring
  · intro t id A B nm sref ppr hLook hRoot hFresh hAge hPar hOld hs hp hne
    obtain ⟨t', nid, hEq, hP, hN, hS, hPP, -, -, -, -, -⟩ :=
      addSister_ok t id A B nm sref ppr hLook hRoot hFresh hAge hPar hOld hs hp hne
    refine ⟨t', nid, hEq, ?_, ?_, ?_, ?_, ?_, ?_⟩
    · rw [hP, hN]
      ring
    · rw [hP]
    · rw [hP]
    · rw [hPP]
    · rw [hP, hPP]
      ring
    · rw [hS]
  · exact fun t id age t' h => set_brLen_preserved t id age t' h
  · intro t id nref pref ancref s hLook hParN hLen hParP hPA hFind hsb hab hpb hsa hsp2 hap
    obtain ⟨u, hEq, hS, -, -, -, -⟩ :=
      delete_collapse_core t id nref pref ancref s hLook hParN hLen hParP hPA hFind
        hsb hab hpb hsa hsp2 hap
    exact ⟨u, hEq, by rw [hS], by rw [hS]⟩

/-- Witness for the amended C2: the `Add` part instantiated on a
concrete tree (`New "t" 100` plus a child), where the created node's
cache is the age difference to its parent. -/
theorem brLen_cache_amended_witness :
    (((New "t" 100).Add 0 10 "a").1.nodeAt 1).brLen =
      ((((New "t" 100).Add 0 10 "a").1).nodeAt 0).age -
        ((((New "t" 100).Add 0 10 "a").1).nodeAt 1).age :=
  brLen_cache_amended.1 (New "t" 100) 0 10 "a" 0 (by decide) (by decide)
    (by decide) (by decide)

/-! ## Claim C3: the `AddSister` contract -/

/-- **C3**.  For a tree, a non-root node `sref` with parent `ppr`, and a
fresh (canonical) taxon name: if `age(sref) ≤ A + B` and
`A + B < age(ppr)` then `AddSister` succeeds, creating a brand-new
internal node `P` (at the fresh arena address `t.arena.length`) with
`age(P) = A + B`; `P` takes the sister's slot in the old parent's child
list (other children and their order preserved), `P` becomes the parent
of the sister and of the newly created named node, in that order; and if
instead `age(ppr) ≤ A + B` (the old parent not strictly older), the call
fails with `OlderAge`. -/
theorem addSister_contract (t : Tree) (id A B : Int) (nm : String) (sref ppr : Ref)
    (hLook : lookupA t.nodes id = some sref)
    (hRoot : t.root ≠ sref)
    (hFresh : ¬(canon nm ≠ "" ∧ (lookupA t.taxa (canon nm)).isSome))
    (hPar : (t.nodeAt sref).parent = some ppr)
    (hs : sref < t.arena.length) (hp : ppr < t.arena.length) (hne : ppr ≠ sref) :
    ((t.nodeAt sref).age ≤ A + B → A + B < (t.nodeAt ppr).age →
      ∃ t' nid, t.AddSister id A B nm = some (t', .ok nid) ∧
        (t'.nodeAt t.arena.length).age = A + B ∧
        (t'.nodeAt t.arena.length).children = [sref, t.arena.length + 1] ∧
        (t'.nodeAt t.arena.length).parent = some ppr ∧
        (t'.nodeAt sref).parent = some t.arena.length ∧
        (t'.nodeAt (t.arena.length + 1)).parent = some t.arena.length ∧
        (t'.nodeAt (t.arena.length + 1)).taxon = canon nm ∧
        (t'.nodeAt (t.arena.length + 1)).age = A ∧
        lookupA t'.nodes nid = some (t.arena.length + 1) ∧
        (∀ l1 l2, (t.nodeAt ppr).children = l1 ++ sref :: l2 → sref ∉ l1 →
          (t'.nodeAt ppr).children = l1 ++ t.arena.length :: l2)) ∧
    ((t.nodeAt sref).age ≤ A + B → (t.nodeAt ppr).age ≤ A + B →
      t.AddSister id A B nm = some (t, .error .olderAge)) := by
  constructor
  · intro hAge hOld
    obtain ⟨t', nid, hEq, hP, hN, hS, hPP, -, -, hLookNid, -, -⟩ :=
      addSister_ok t id A B nm sref ppr hLook hRoot hFresh hAge hPar hOld hs hp hne
    refine ⟨t', nid, hEq, by rw [hP], by rw [hP], by rw [hP], by rw [hS],
      by rw [hN], by rw [hN], by rw [hN], hLookNid, ?_⟩
    intro l1 l2 hdec hnot
    rw [hPP]
    show replaceFirst (t.nodeAt ppr).children sref t.arena.length = _
    rw [hdec, replaceFirst_decomp _ _ _ _ hnot]
  · intro hAge hOld
    simp only [Tree.AddSister, hLook, hPar, if_neg hRoot, if_neg hFresh,
      if_neg (not_lt.2 hAge), if_pos hOld]

/-- Witness tree for C3: root age 10 with terminals `a` (age 9) and `b`
(age 8). -/
def c3tree : Tree := (((New "w" 10).Add 0 1 "a").1.Add 0 2 "b").1

/-- Witness for C3: both branches instantiated on `c3tree` — a
successful `AddSister(1, 7, 2, "c")` and an `OlderAge` failure for
`AddSister(1, 8, 3, "c")`. -/
theorem addSister_contract_witness :
    (∃ t' nid, c3tree.AddSister 1 7 2 "c" = some (t', .ok nid) ∧
      (t'.nodeAt 3).age = 9 ∧ (t'.nodeAt 3).children = [1, 4]) ∧
    c3tree.AddSister 1 8 3 "c" = some (c3tree, .error .olderAge) := by
  constructor
  · obtain ⟨t', nid, hEq, hAge, hCh, -⟩ :=
      (addSister_contract c3tree 1 7 2 "c" 1 0 (by decide) (by decide) (by decide)
        (by decide) (by decide) (by decide) (by decide)).1 (by decide) (by decide)
    exact ⟨t', nid, hEq, hAge, hCh⟩
  · exact (addSister_contract c3tree 1 8 3 "c" 1 0 (by decide) (by decide) (by decide)
      (by decide) (by decide) (by decide) (by decide)).2 (by decide) (by decide)

/-! ## Claim C4: Delete collapses binary parents -/

/-- **C4**.  For a node `nref` that is one of exactly two children of
its parent `pref` (the other being `s`), `Delete` removes the node and
its subtree (the ids of `del`'s visit order disappear from the `nodes`
map) and removes the parent, re-parenting the surviving sibling: if the
parent has a grandparent `ancref`, the sibling takes the parent's slot
in the grandparent's child list (`replaceFirst`, which keeps the
grandparent's other children and their relative order), and the
sibling's own subtree survives unchanged; if the parent is the root,
the sibling becomes the new root. -/
theorem delete_collapses_binary (t : Tree) (id : Int) (nref pref s : Ref)
    (hLook : lookupA t.nodes id = some nref)
    (hParN : (t.nodeAt nref).parent = some pref)
    (hTwo : (t.nodeAt pref).children = [nref, s] ∨ (t.nodeAt pref).children = [s, nref])
    (hsn : s ≠ nref)
    (hNodup : (t.nodes.map Prod.fst).Nodup)
    (hsb : s < t.arena.length) (hpb : pref < t.arena.length)
    (hsp : s ≠ pref)
    (hAvoidS : s ∉ delRefsF t.arena.length t nref)
    (hAvoidP : pref ∉ delRefsF t.arena.length t nref) :
    (∀ ancref, (t.nodeAt pref).parent = some ancref →
      pref ∈ (t.nodeAt ancref).children →
      ancref < t.arena.length → s ≠ ancref → ancref ≠ pref →
      ancref ∉ delRefsF t.arena.length t nref →
      ∃ u, t.Delete id = some u ∧
        u.nodeAt s = { t.nodeAt s with parent := some ancref } ∧
        u.nodeAt ancref =
          { t.nodeAt ancref with
            children := replaceFirst (t.nodeAt ancref).children pref s } ∧
        (∀ r, r ≠ s → r ≠ ancref → r ≠ pref → u.nodeAt r = t.nodeAt r) ∧
        u.root = t.root ∧
        (∀ k, lookupA u.nodes k =
          if k = (t.nodeAt pref).id ∨
             k ∈ (delRefsF t.arena.length t nref).map (fun x => (t.nodeAt x).id)
          then none else lookupA t.nodes k)) ∧
    ((t.nodeAt pref).parent = none →
      ∃ u, t.Delete id = some u ∧
        u.root = s ∧
        u.nodeAt s = { t.nodeAt s with parent := none } ∧
        (∀ r, r ≠ s → r ≠ pref → u.nodeAt r = t.nodeAt r) ∧
        (∀ k, lookupA u.nodes k =
          if k = (t.nodeAt pref).id ∨
             k ∈ (delRefsF t.arena.length t nref).map (fun x => (t.nodeAt x).id)
          then none else lookupA t.nodes k)) := by
  have hps : pref ≠ s := Ne.symm hsp
  have hLen : ¬ 2 < (t.nodeAt pref).children.length := by
    rcases hTwo with h | h <;> simp [h]
  have hFind : (t.nodeAt pref).children.find? (fun c => c ≠ nref) = some s := by
    rcases hTwo with h | h <;> rw [h] <;> simp [List.find?, hsn]
  have hErase : (t.nodeAt pref).children.erase s = [nref] := by
    rcases hTwo with h | h <;> rw [h] <;> simp [List.erase_cons, Ne.symm hsn]
  constructor
  · intro ancref hParP hPA hab hsa hap hAvoidA
    have hpa : pref ≠ ancref := Ne.symm hap
    obtain ⟨T4, hT4⟩ : ∃ T4, (((t.modifyNode ancref
        (fun q => { q with children := replaceFirst q.children pref s })).modifyNode pref
        (fun q => { q with children := q.children.erase s })).modifyNode s
        (fun q => { q with parent := some ancref })).modifyNode pref
        (fun q => { q with parent := none }) = T4 := ⟨_, rfl⟩
    have hT4len : T4.arena.length = t.arena.length := by
      rw [← hT4]; simp only [length_modify]
    have hT4nodes : T4.nodes = t.nodes := by
      rw [← hT4]; simp only [nodes_modify]
    have hT4root : T4.root = t.root := by
      rw [← hT4]; simp only [root_modify]
    have hT4at : ∀ x, x ≠ ancref → x ≠ pref → x ≠ s → T4.nodeAt x = t.nodeAt x := by
      intro x h1 h2 h3
      rw [← hT4, nodeAt_modify_other _ _ _ _ h2, nodeAt_modify_other _ _ _ _ h3,
        nodeAt_modify_other _ _ _ _ h2, nodeAt_modify_other _ _ _ _ h1]
    have hT4s : T4.nodeAt s = { t.nodeAt s with parent := some ancref } := by
      rw [← hT4, nodeAt_modify_other _ _ _ _ hsp,
        nodeAt_modify_self _ _ _ (by simp only [length_modify]; exact hsb),
        nodeAt_modify_other _ _ _ _ hsp, nodeAt_modify_other _ _ _ _ hsa]
    have hT4a : T4.nodeAt ancref =
        { t.nodeAt ancref with
          children := replaceFirst (t.nodeAt ancref).children pref s } := by
      rw [← hT4, nodeAt_modify_other _ _ _ _ hap,
        nodeAt_modify_other _ _ _ _ (Ne.symm hsa), nodeAt_modify_other _ _ _ _ hap,
        nodeAt_modify_self _ _ _ hab]
    have hT4p : T4.nodeAt pref =
        { t.nodeAt pref with children := [nref], parent := none } := by
      rw [← hT4, nodeAt_modify_self _ _ _ (by simp only [length_modify]; exact hpb),
        nodeAt_modify_other _ _ _ _ hps,
        nodeAt_modify_self _ _ _ (by simp only [length_modify]; exact hpb),
        nodeAt_modify_other _ _ _ _ hpa]
      simp only [hErase]
    have hcongr4 : delRefsF t.arena.length T4 nref = delRefsF t.arena.length t nref :=
      delRefsF_congr _ t T4 nref (fun x hx => hT4at x (fun he => hAvoidA (he ▸ hx))
        (fun he => hAvoidP (he ▸ hx)) (fun he => hAvoidS (he ▸ hx)))
    have hrefs4 : delRefsF (t.arena.length + 1) T4 pref =
        pref :: delRefsF t.arena.length t nref := by
      simp only [delRefsF, hT4p, List.foldl_cons, List.foldl_nil, List.cons_append,
        List.nil_append]
      rw [hcongr4]
    have hcong : ∀ (m : List (Int × Ref)),
        ∀ x ∈ pref :: delRefsF t.arena.length t nref,
        eraseA m (T4.nodeAt x).id = eraseA m (t.nodeAt x).id := by
      intro m x hx
      rcases List.mem_cons.1 hx with h | h
      · subst h
        rw [hT4p]
      · rw [hT4at x (fun he => hAvoidA (he ▸ h)) (fun he => hAvoidP (he ▸ h))
          (fun he => hAvoidS (he ▸ h))]
    have hstep := foldl_congr_mem (pref :: delRefsF t.arena.length t nref)
      (fun m x => eraseA m (T4.nodeAt x).id)
      (fun m x => eraseA m (t.nodeAt x).id) hcong t.nodes
    simp only [Tree.Delete, hLook, hParN, hParP, if_neg hLen, if_pos hPA, hFind]
    refine ⟨_, rfl, ?_, ?_, ?_, ?_, ?_⟩
    · rw [hT4, delF_nodeAt]
      exact hT4s
    · rw [hT4, delF_nodeAt]
      exact hT4a
    · intro r h1 h2 h3
      rw [hT4, delF_nodeAt]
      exact hT4at r h2 h3 h1
    · rw [hT4, delF_root]
      exact hT4root
    · intro k
      rw [hT4, delF_nodes, hT4len, hT4nodes, hrefs4, hstep, foldl_eraseA_nodeAt,
        lookupA_foldl_eraseA ((pref :: delRefsF t.arena.length t nref).map
          (fun x => (t.nodeAt x).id)) t.nodes k hNodup]
      simp only [List.map_cons, List.mem_cons]
  · intro hParP
    obtain ⟨T3, hT3⟩ : ∃ T3, (Tree.modifyNode { t with root := s } s
        (fun q => { q with parent := none })).modifyNode pref
        (fun q => { q with children := q.children.erase s }) = T3 := ⟨_, rfl⟩
    have hT3len : T3.arena.length = t.arena.length := by
      rw [← hT3]; simp only [length_modify]
    have hT3nodes : T3.nodes = t.nodes := by
      rw [← hT3]; simp only [nodes_modify]
    have hT3root : T3.root = s := by
      rw [← hT3]; simp only [root_modify]
    have hT3at : ∀ x, x ≠ s → x ≠ pref → T3.nodeAt x = t.nodeAt x := by
      intro x h1 h2
      rw [← hT3, nodeAt_modify_other _ _ _ _ h2, nodeAt_modify_other _ _ _ _ h1]
      simp [Tree.nodeAt]
    have hT3s : T3.nodeAt s = { t.nodeAt s with parent := none } := by
      rw [← hT3, nodeAt_modify_other _ _ _ _ hsp,
        nodeAt_modify_self _ _ _ (by exact hsb)]
      simp [Tree.nodeAt]
    have hT3p : T3.nodeAt pref = { t.nodeAt pref with children := [nref] } := by
      rw [← hT3, nodeAt_modify_self _ _ _ (by simp only [length_modify]; exact hpb),
        nodeAt_modify_other _ _ _ _ hps]
      simp only [show Tree.nodeAt { t with root := s } pref = t.nodeAt pref from rfl, hErase]
    have hcongr3 : delRefsF t.arena.length T3 nref = delRefsF t.arena.length t nref :=
      delRefsF_congr _ t T3 nref (fun x hx => hT3at x (fun he => hAvoidS (he ▸ hx))
        (fun he => hAvoidP (he ▸ hx)))
    have hrefs3 : delRefsF (t.arena.length + 1) T3 pref =
        pref :: delRefsF t.arena.length t nref := by
      simp only [delRefsF, hT3p, List.foldl_cons, List.foldl_nil, List.cons_append,
        List.nil_append]
      rw [hcongr3]
    have hcong3 : ∀ (m : List (Int × Ref)),
        ∀ x ∈ pref :: delRefsF t.arena.length t nref,
        eraseA m (T3.nodeAt x).id = eraseA m (t.nodeAt x).id := by
      intro m x hx
      rcases List.mem_cons.1 hx with h | h
      · subst h
        rw [hT3p]
      · rw [hT3at x (fun he => hAvoidS (he ▸ h)) (fun he => hAvoidP (he ▸ h))]
    have hstep3 := foldl_congr_mem (pref :: delRefsF t.arena.length t nref)
      (fun m x => eraseA m (T3.nodeAt x).id)
      (fun m x => eraseA m (t.nodeAt x).id) hcong3 t.nodes
    simp only [Tree.Delete, hLook, hParN, hParP, if_neg hLen, hFind]
    refine ⟨_, rfl, ?_, ?_, ?_, ?_⟩
    · rw [hT3, delF_root]
      exact hT3root
    · rw [hT3, delF_nodeAt]
      exact hT3s
    · intro r h1 h2
      rw [hT3, delF_nodeAt]
      exact hT3at r h1 h2
    · intro k
      rw [hT3, delF_nodes, hT3len, hT3nodes, hrefs3, hstep3, foldl_eraseA_nodeAt,
        lookupA_foldl_eraseA ((pref :: delRefsF t.arena.length t nref).map
          (fun x => (t.nodeAt x).id)) t.nodes k hNodup]
      simp only [List.map_cons, List.mem_cons]

/-- Witness tree for C4's grandparent case: root (id 0, age 100) with
internal child `a` (id 1, age 80) whose two children are the terminals
`b` (id 2, age 50) and `c` (id 3, age 40). -/
def c4tree : Tree := ((((New "t" 100).Add 0 20 "a").1.Add 1 30 "b").1.Add 1 40 "c").1

/-- Witness tree for C4's root case: binary root (id 0, age 100) with
terminal children `a` (id 1, age 30) and `b` (id 2, age 20). -/
def c4root : Tree := (((New "r" 100).Add 0 70 "a").1.Add 0 80 "b").1

/-- Witness for C4: deleting `b` in `c4tree` re-parents `c` onto the
root and removes `a` and `b` from the map; deleting `a` in `c4root`
makes `b` the new root. -/
theorem delete_collapses_binary_witness :
    (∃ u, c4tree.Delete 2 = some u ∧
      u.nodeAt 3 = { c4tree.nodeAt 3 with parent := some 0 } ∧
      u.root = c4tree.root ∧
      lookupA u.nodes 1 = none ∧ lookupA u.nodes 2 = none ∧
      lookupA u.nodes 0 = some 0 ∧ lookupA u.nodes 3 = some 3) ∧
    (∃ v, c4root.Delete 1 = some v ∧ v.root = 2 ∧
      v.nodeAt 2 = { c4root.nodeAt 2 with parent := none } ∧
      lookupA v.nodes 0 = none ∧ lookupA v.nodes 1 = none ∧
      lookupA v.nodes 2 = some 2) := by
  constructor
  · obtain ⟨hA, -⟩ := delete_collapses_binary c4tree 2 2 1 3 (by decide) (by decide)
      (Or.inl (by decide)) (by decide) (by decide) (by decide) (by decide) (by decide)
      (by decide) (by decide)
    obtain ⟨u, hu, hs, -, -, hr, hl⟩ := hA 0 (by decide) (by decide) (by decide)
      (by decide) (by decide) (by decide)
    refine ⟨u, hu, hs, hr, ?_, ?_, ?_, ?_⟩ <;> rw [hl] <;> decide
  · obtain ⟨-, hB⟩ := delete_collapses_binary c4root 1 1 0 2 (by decide) (by decide)
      (Or.inl (by decide)) (by decide) (by decide) (by decide) (by decide) (by decide)
      (by decide) (by decide)
    obtain ⟨v, hv, hvroot, hvs, -, hvl⟩ := hB (by decide)
    refine ⟨v, hv, hvroot, hvs, ?_, ?_, ?_⟩ <;> rw [hvl] <;> decide

/-! ## Claim C7: MRCA correctness -/

/-- Greatest common prefix: `L` is a prefix of every list of `ps`, and
every common prefix of `ps` is a prefix of `L` (specification-side
characterization of the `MRCA` path intersection, following the spec's
words). -/
def commonPrefixAll (L : List Int) (ps : List (List Int)) : Prop :=
  (∀ p ∈ ps, ∃ q, p = L ++ q) ∧
  (∀ L2, (∀ p ∈ ps, ∃ q, p = L2 ++ q) → ∃ q, L = L2 ++ q)

theorem pre_trans {α : Type} {A B C : List α} (h1 : ∃ q, A = B ++ q)
    (h2 : ∃ q, B = C ++ q) : ∃ q, A = C ++ q := by
  obtain ⟨q1, h1⟩ := h1
  obtain ⟨q2, h2⟩ := h2
  exact ⟨q2 ++ q1, by rw [h1, h2, List.append_assoc]⟩

theorem lockstep_cons_eq (x : Int) (as bs : List Int) :
    lockstep (x :: as) (x :: bs) = x :: lockstep as bs := by
  simp [lockstep]

theorem lockstep_cons_ne (x y : Int) (as bs : List Int) (h : x ≠ y) :
    lockstep (x :: as) (y :: bs) = [] := by
  simp [lockstep, h]

theorem lockstep_pre_left : ∀ (a b : List Int), ∃ q, a = lockstep a b ++ q := by
  intro a
  induction a with
  | nil => intro b; exact ⟨[], rfl⟩
  | cons x as ih =>
    intro b
    cases b with
    | nil => exact ⟨x :: as, rfl⟩
    | cons y bs =>
      by_cases h : x = y
      · subst h
        obtain ⟨q, hq⟩ := ih bs
        refine ⟨q, ?_⟩
        rw [lockstep_cons_eq, List.cons_append, ← hq]
      · refine ⟨x :: as, ?_⟩
        rw [lockstep_cons_ne x y as bs h, List.nil_append]

theorem lockstep_pre_right : ∀ (a b : List Int), ∃ q, b = lockstep a b ++ q := by
  intro a
  induction a with
  | nil => intro b; exact ⟨b, rfl⟩
  | cons x as ih =>
    intro b
    cases b with
    | nil => exact ⟨[], rfl⟩
    | cons y bs =>
      by_cases h : x = y
      · subst h
        obtain ⟨q, hq⟩ := ih bs
        refine ⟨q, ?_⟩
        rw [lockstep_cons_eq, List.cons_append, ← hq]
      · refine ⟨y :: bs, ?_⟩
        rw [lockstep_cons_ne x y as bs h, List.nil_append]

theorem lockstep_greatest : ∀ (L2 a b : List Int), (∃ q, a = L2 ++ q) →
    (∃ q, b = L2 ++ q) → ∃ q, lockstep a b = L2 ++ q := by
  intro L2
  induction L2 with
  | nil => intro a b _ _; exact ⟨lockstep a b, rfl⟩
  | cons z L2' ih =>
    intro a b ha hb
    obtain ⟨qa, hqa⟩ := ha
    obtain ⟨qb, hqb⟩ := hb
    subst hqa
    subst hqb
    obtain ⟨q, hq⟩ := ih (L2' ++ qa) (L2' ++ qb) ⟨qa, rfl⟩ ⟨qb, rfl⟩
    refine ⟨q, ?_⟩
    rw [List.cons_append, List.cons_append, lockstep_cons_eq, hq, List.cons_append]

/-- Folding the lock-step truncation over a list of paths computes the
greatest common prefix of the initial path and all folded paths. -/
theorem foldl_lockstep_lcp : ∀ (ps : List (List Int)) (m : List Int),
    commonPrefixAll (ps.foldl lockstep m) (m :: ps) := by
  intro ps
  induction ps with
  | nil =>
    intro m
    constructor
    · intro p hp
      rw [List.mem_singleton.1 hp]
      exact ⟨[], by simp⟩
    · intro L2 h
      exact h m (List.mem_singleton.2 rfl)
  | cons p0 ps' ih =>
    intro m
    rw [List.foldl_cons]
    obtain ⟨hcov, hmax⟩ := ih (lockstep m p0)
    constructor
    · intro p hp
      rcases List.mem_cons.1 hp with h | h
      · rw [h]
        exact pre_trans (lockstep_pre_left m p0) (hcov _ (List.mem_cons_self _ _))
      · rcases List.mem_cons.1 h with h2 | h2
        · rw [h2]
          exact pre_trans (lockstep_pre_right m p0) (hcov _ (List.mem_cons_self _ _))
        · exact hcov p (List.mem_cons_of_mem _ h2)
    · intro L2 hL2
      refine hmax L2 ?_
      intro p hp
      rcases List.mem_cons.1 hp with h | h
      · subst h
        exact lockstep_greatest L2 m p0 (hL2 m (by simp)) (hL2 p0 (by simp))
      · exact hL2 p (by simp [h])

/-- An unknown name anywhere in the remaining list makes the `MRCA` fold
return the early `-1`. -/
theorem mrcaLoop_unknown (t : Tree) (fuel : Nat) : ∀ (rest : List String)
    (mrca : List Int) (nm : String), nm ∈ rest →
    lookupA t.taxa (canon nm) = none → mrcaLoop t fuel mrca rest = none := by
  intro rest
  induction rest with
  | nil => intro mrca nm h _; cases h
  | cons nm0 rest' ih =>
    intro mrca nm hmem hnone
    rcases List.mem_cons.1 hmem with h | h
    · subst h
      simp only [mrcaLoop, hnone]
    · cases hl : lookupA t.taxa (canon nm0) with
      | none => simp only [mrcaLoop, hl]
      | some r =>
        simp only [mrcaLoop, hl]
        exact ih _ nm h hnone

/-- When every remaining name resolves, the `MRCA` fold is the lock-step
fold of the resolved paths. -/
theorem mrcaLoop_known (t : Tree) (fuel : Nat) : ∀ (rest : List String) (rs : List Ref)
    (mrca : List Int), rs.length = rest.length →
    (∀ p ∈ rest.zip rs, lookupA t.taxa (canon p.1) = some p.2) →
    mrcaLoop t fuel mrca rest =
      some ((rs.map (pathF fuel t)).foldl lockstep mrca) := by
  intro rest
  induction rest with
  | nil =>
    intro rs mrca hlen _
    have hnil : rs = [] := by
      cases rs with
      | nil => rfl
      | cons a b => simp at hlen
    subst hnil
    rfl
  | cons nm0 rest' ih =>
    intro rs mrca hlen hz
    cases rs with
    | nil => simp at hlen
    | cons r0 rs' =>
      have h0 : lookupA t.taxa (canon nm0) = some r0 :=
        hz (nm0, r0) (by simp [List.zip_cons_cons])
      simp only [mrcaLoop, h0]
      rw [ih rs' (lockstep mrca (pathF fuel t r0)) (by simpa using hlen)
        (fun p hp => hz p (by rw [List.zip_cons_cons]; exact List.mem_cons_of_mem _ hp))]
      rw [List.map_cons, List.foldl_cons]

/-- **C7**.  `MRCA` of an empty name list is `-1`; `MRCA` is `-1`
whenever any given name is not a taxon of the tree; `MRCA` of exactly
one known name is that node's own id; and for two or more known names
whose root-to-node paths share their first element, the result is the
last element of the greatest common prefix of the paths. -/
theorem mrca_correct (t : Tree) :
    t.MRCA [] = some (-1) ∧
    (∀ (names : List String) (nm : String), nm ∈ names →
      lookupA t.taxa (canon nm) = none → t.MRCA names = some (-1)) ∧
    (∀ (nm : String) (r : Ref), lookupA t.taxa (canon nm) = some r →
      t.MRCA [nm] = some (t.nodeAt r).id) ∧
    (∀ (nm0 nm1 : String) (rest : List String) (r0 r1 : Ref) (rs : List Ref) (a : Int),
      lookupA t.taxa (canon nm0) = some r0 →
      lookupA t.taxa (canon nm1) = some r1 →
      rs.length = rest.length →
      (∀ p ∈ rest.zip rs, lookupA t.taxa (canon p.1) = some p.2) →
      (∀ p ∈ pathF (t.arena.length + 1) t r0 :: pathF (t.arena.length + 1) t r1 ::
          rs.map (pathF (t.arena.length + 1) t), p.head? = some a) →
      ∃ L v, commonPrefixAll L (pathF (t.arena.length + 1) t r0 ::
          pathF (t.arena.length + 1) t r1 :: rs.map (pathF (t.arena.length + 1) t)) ∧
        L.getLast? = some v ∧ t.MRCA (nm0 :: nm1 :: rest) = some v) := by
  refine ⟨rfl, ?_, ?_, ?_⟩
  · intro names nm hmem hnone
    cases names with
    | nil => cases hmem
    | cons n0 rest =>
      cases hl : lookupA t.taxa (canon n0) with
      | none => simp [Tree.MRCA, hl]
      | some r0 =>
        rcases List.mem_cons.1 hmem with h | h
        · subst h
          rw [hl] at hnone
          exact Option.noConfusion hnone
        · cases rest with
          | nil => cases h
          | cons n1 rest' =>
            have hloop := mrcaLoop_unknown t (t.arena.length + 1) (n1 :: rest')
              (pathF (t.arena.length + 1) t r0) nm h hnone
            simp [Tree.MRCA, hl, hloop]
  · intro nm r hl
    simp [Tree.MRCA, hl]
  · intro nm0 nm1 rest r0 r1 rs a h0 h1 hlen hz hhead
    have hz' : ∀ p ∈ (nm1 :: rest).zip (r1 :: rs),
        lookupA t.taxa (canon p.1) = some p.2 := by
      intro p hp
      rw [List.zip_cons_cons] at hp
      rcases List.mem_cons.1 hp with h | h
      · subst h
        exact h1
      · exact hz p h
    have hloop := mrcaLoop_known t (t.arena.length + 1) (nm1 :: rest) (r1 :: rs)
      (pathF (t.arena.length + 1) t r0) (by simp [hlen]) hz'
    obtain ⟨hcov, hmax⟩ := foldl_lockstep_lcp
      ((r1 :: rs).map (pathF (t.arena.length + 1) t)) (pathF (t.arena.length + 1) t r0)
    have hpre : ∀ p ∈ pathF (t.arena.length + 1) t r0 ::
        (r1 :: rs).map (pathF (t.arena.length + 1) t), ∃ q, p = [a] ++ q := by
      intro p hp
      have hh := hhead p (by simpa only [List.map_cons] using hp)
      cases p with
      | nil => simp at hh
      | cons x xs =>
        simp only [List.head?] at hh
        injection hh with hxa
        exact ⟨xs, by rw [hxa, List.singleton_append]⟩
    obtain ⟨qL, hqL⟩ := hmax [a] hpre
    have hlast : ∃ v, (((r1 :: rs).map (pathF (t.arena.length + 1) t)).foldl lockstep
        (pathF (t.arena.length + 1) t r0)).getLast? = some v := by
      rw [hqL]
      exact Option.isSome_iff_exists.1 (List.getLast?_isSome.2 (by simp))
    obtain ⟨v, hv⟩ := hlast
    refine ⟨((r1 :: rs).map (pathF (t.arena.length + 1) t)).foldl lockstep
      (pathF (t.arena.length + 1) t r0), v, ⟨?_, ?_⟩, hv, ?_⟩
    · simp only [List.map_cons] at hcov
      exact hcov
    · simp only [List.map_cons] at hmax
      exact hmax
    · simp only [Tree.MRCA, h0]
      rw [if_neg (show ¬ (nm1 :: rest) = [] by simp)]
      rw [hloop]
      simp only [hv]

/-- Witness tree for C7: root (id 0, age 100) with internal child `a`
(id 1, age 80) over terminals `b` (id 2, age 50) and `c` (id 3,
age 40). -/
def c7tree : Tree := ((((New "t" 100).Add 0 20 "a").1.Add 1 30 "b").1.Add 1 40 "c").1

/-- Witness for C7: the four branches instantiated on `c7tree` — the
empty query, an unknown name, a single known name, and the two-name
query `MRCA("b","c")` whose path intersection ends at node 1. -/
theorem mrca_correct_witness :
    c7tree.MRCA [] = some (-1) ∧
    c7tree.MRCA ["b", "zz"] = some (-1) ∧
    c7tree.MRCA ["b"] = some (c7tree.nodeAt 2).id ∧
    ∃ L v, commonPrefixAll L [pathF (c7tree.arena.length + 1) c7tree 2,
        pathF (c7tree.arena.length + 1) c7tree 3] ∧
      L.getLast? = some v ∧ c7tree.MRCA ["b", "c"] = some v := by
  obtain ⟨h1, h2, h3, h4⟩ := mrca_correct c7tree
  refine ⟨h1, h2 ["b", "zz"] "zz" (by decide) (by decide), h3 "b" 2 (by decide), ?_⟩
  have hmain := h4 "b" "c" [] 2 3 [] 0 (by decide) (by decide) (by decide)
    (by decide) (by decide)
  simpa only [List.map_nil] using hmain

/-! ## Claim C6: Format is a fixed point -/

/-- Consecutive elements of the list are strictly ordered by the
comparator. -/
def chainB {α : Type} (f : α → α → Bool) : List α → Bool
  | [] => true
  | [_] => true
  | a :: b :: rest => f a b && chainB f (b :: rest)

/-- Every child list in the subtree is sorted by the `sortAllChildren`
comparator of the tree itself (the state `Format` leaves behind when no
sibling keys tie). -/
def sortedBelow : Nat → Tree → Ref → Bool
  | 0, _, _ => true
  | fuel + 1, t, r =>
    chainB (fun a b => nodeBefore t (t.arena.length + 1) a b) (t.nodeAt r).children &&
    (t.nodeAt r).children.all (fun c => sortedBelow fuel t c)

theorem sortBy_eq_self {α : Type} (f : α → α → Bool) :
    ∀ (l : List α), chainB f l = true → sortBy f l = l := by
  intro l
  induction l with
  | nil => intro _; rfl
  | cons x xs ih =>
    intro h
    cases xs with
    | nil => rfl
    | cons y ys =>
      simp only [chainB, Bool.and_eq_true] at h
      show insertSorted f x (sortBy f (y :: ys)) = x :: y :: ys
      rw [ih h.2]
      simp [insertSorted, h.1]

theorem set_getD_self : ∀ (l : List GoNode) (r : Nat),
    l.set r ((l[r]?).getD nullNode) = l := by
  intro l
  induction l with
  | nil => intro r; rfl
  | cons x xs ih =>
    intro r
    cases r with
    | zero => simp
    | succ n =>
      show x :: xs.set n ((x :: xs)[n + 1]?.getD nullNode) = x :: xs
      rw [List.getElem?_cons_succ, ih n]

theorem setNode_self (t : Tree) (r : Ref) : t.setNode r (t.nodeAt r) = t := by
  cases t
  simp [Tree.setNode, Tree.nodeAt, set_getD_self]

theorem modify_id_self (t : Tree) (r : Ref) (i : Int) (h : (t.nodeAt r).id = i) :
    t.modifyNode r (fun q => { q with id := i }) = t := by
  rw [Tree.modifyNode, ← h]
  exact setNode_self t r

/-- A tree whose child lists are already sorted is untouched by
`sortAllChildren`. -/
theorem sortAllF_eq_self : ∀ (fuel : Nat) (t : Tree) (r : Ref),
    sortedBelow fuel t r = true → sortAllF fuel t r = t := by
  intro fuel
  induction fuel with
  | zero => intro t r _; rfl
  | succ fuel ih =>
    intro t r h
    simp only [sortedBelow, Bool.and_eq_true, List.all_eq_true] at h
    obtain ⟨hchain, hall⟩ := h
    have hfold : ∀ (l : List Ref), (∀ c ∈ l, sortedBelow fuel t c = true) →
        l.foldl (fun acc c => sortAllF fuel acc c) t = t := by
      intro l
      induction l with
      | nil => intro _; rfl
      | cons c cs ihl =>
        intro hl
        rw [List.foldl_cons, ih t c (hl c (List.mem_cons_self _ _)),
          ihl (fun d hd => hl d (List.mem_cons_of_mem _ hd))]
    simp only [sortAllF]
    rw [hfold _ (fun c hc => hall c hc), Tree.modifyNode]
    show t.setNode r { t.nodeAt r with children := sortBy (fun a b => nodeBefore t (t.arena.length + 1) a b) (t.nodeAt r).children } = t
    rw [sortBy_eq_self _ _ hchain]
    exact setNode_self t r

theorem preOrderF_congr (fuel : Nat) : ∀ (t u : Tree) (r : Ref),
    (∀ x ∈ preOrderF fuel t r, (u.nodeAt x).children = (t.nodeAt x).children) →
    preOrderF fuel u r = preOrderF fuel t r := by
  induction fuel with
  | zero => intro t u r _; rfl
  | succ fuel ih =>
    intro t u r h
    have hr : r ∈ preOrderF (fuel + 1) t r := by
      simp only [preOrderF]
      exact List.mem_cons_self _ _
    have hur := h r hr
    have hfold : ∀ (l : List Ref),
        (∀ c ∈ l, ∀ x ∈ preOrderF fuel t c,
          (u.nodeAt x).children = (t.nodeAt x).children) →
        ∀ (L : List Ref),
        l.foldl (fun acc c => acc ++ preOrderF fuel u c) L =
        l.foldl (fun acc c => acc ++ preOrderF fuel t c) L := by
      intro l
      induction l with
      | nil => intro _ L; rfl
      | cons c cs ihl =>
        intro hl L
        rw [List.foldl_cons, List.foldl_cons,
          ih t u c (hl c (List.mem_cons_self c cs)),
          ihl (fun d hd => hl d (List.mem_cons_of_mem c hd))]
    simp only [preOrderF, hur]
    rw [hfold (t.nodeAt r).children (fun c hc x hx => h x (by
      simp only [preOrderF]
      exact List.mem_cons_of_mem _ (mem_foldl_append _ x c _ _ hc hx))) []]

theorem renum_children : ∀ (l : List (Nat × Ref)) (u : Tree) (x : Ref),
    ((l.foldl (fun acc ir => acc.modifyNode ir.2
      (fun q => { q with id := (ir.1 : Int) })) u).nodeAt x).children =
    (u.nodeAt x).children := by
  intro l
  induction l with
  | nil => intro u x; rfl
  | cons ir l' ih =>
    intro u x
    rw [List.foldl_cons, ih]
    by_cases hx : x = ir.2
    · rw [hx]
      by_cases hb : ir.2 < u.arena.length
      · rw [nodeAt_modify_self _ _ _ hb]
      · rw [Tree.modifyNode, nodeAt_setNode_ge _ _ _ (Nat.le_of_not_lt hb)]
    · rw [nodeAt_modify_other _ _ _ _ hx]

theorem renum_root : ∀ (l : List (Nat × Ref)) (u : Tree),
    (l.foldl (fun acc ir => acc.modifyNode ir.2
      (fun q => { q with id := (ir.1 : Int) })) u).root = u.root := by
  intro l
  induction l with
  | nil => intro u; rfl
  | cons ir l' ih =>
    intro u
    rw [List.foldl_cons, ih, root_modify]

theorem renum_len : ∀ (l : List (Nat × Ref)) (u : Tree),
    (l.foldl (fun acc ir => acc.modifyNode ir.2
      (fun q => { q with id := (ir.1 : Int) })) u).arena.length = u.arena.length := by
  intro l
  induction l with
  | nil => intro u; rfl
  | cons ir l' ih =>
    intro u
    rw [List.foldl_cons, ih, length_modify]

theorem renum_frame : ∀ (l : List (Nat × Ref)) (u : Tree) (x : Ref),
    x ∉ l.map Prod.snd →
    (l.foldl (fun acc ir => acc.modifyNode ir.2
      (fun q => { q with id := (ir.1 : Int) })) u).nodeAt x = u.nodeAt x := by
  intro l
  induction l with
  | nil => intro u x _; rfl
  | cons ir l' ih =>
    intro u x h
    simp only [List.map_cons, List.mem_cons, not_or] at h
    rw [List.foldl_cons, ih _ _ h.2, nodeAt_modify_other _ _ _ _ h.1]

theorem renum_id : ∀ (l : List (Nat × Ref)) (u : Tree),
    (l.map Prod.snd).Nodup → (∀ p ∈ l, p.2 < u.arena.length) →
    ∀ p ∈ l, ((l.foldl (fun acc ir => acc.modifyNode ir.2
      (fun q => { q with id := (ir.1 : Int) })) u).nodeAt p.2).id = (p.1 : Int) := by
  intro l
  induction l with
  | nil => intro u _ _ p hp; cases hp
  | cons ir l' ih =>
    intro u hnd hb p hp
    simp only [List.map_cons, List.nodup_cons] at hnd
    rcases List.mem_cons.1 hp with h | h
    · rw [h, List.foldl_cons, renum_frame l' _ ir.2 hnd.1,
        nodeAt_modify_self _ _ _ (hb ir (List.mem_cons_self _ _))]
    · rw [List.foldl_cons]
      exact ih _ hnd.2
        (fun q hq => by rw [length_modify]; exact hb q (List.mem_cons_of_mem _ hq)) p h

theorem renum_fold_self : ∀ (l : List (Nat × Ref)) (u : Tree),
    (∀ p ∈ l, (u.nodeAt p.2).id = (p.1 : Int)) →
    l.foldl (fun acc ir => acc.modifyNode ir.2
      (fun q => { q with id := (ir.1 : Int) })) u = u := by
  intro l
  induction l with
  | nil => intro u _; rfl
  | cons ir l' ih =>
    intro u h
    rw [List.foldl_cons, modify_id_self u ir.2 (ir.1 : Int) (h ir (List.mem_cons_self _ _))]
    exact ih u (fun p hp => h p (List.mem_cons_of_mem _ hp))

theorem ltStrChars_irrefl : ∀ (l : List Char), ltStrChars l l = false := by
  intro l
  induction l with
  | nil => rfl
  | cons a as ih =>
    simp only [ltStrChars]
    rw [if_neg (lt_irrefl a), if_neg (lt_irrefl a)]
    exact ih

theorem ltStrChars_asymm : ∀ (l1 l2 : List Char), ltStrChars l1 l2 = true →
    ltStrChars l2 l1 = false := by
  intro l1
  induction l1 with
  | nil =>
    intro l2 h
    cases l2 with
    | nil => simp [ltStrChars] at h
    | cons b bs => rfl
  | cons a as ih =>
    intro l2 h
    cases l2 with
    | nil => simp [ltStrChars] at h
    | cons b bs =>
      by_cases hab : a < b
      · simp only [ltStrChars]
        rw [if_neg (lt_asymm hab), if_pos hab]
      · by_cases hba : b < a
        · simp only [ltStrChars, if_neg hab, if_pos hba] at h
          exact Bool.noConfusion h
        · simp only [ltStrChars, if_neg hab, if_neg hba] at h
          simp only [ltStrChars, if_neg hba, if_neg hab]
          exact ih bs h

theorem ltStrChars_trans : ∀ (l1 l2 l3 : List Char), ltStrChars l1 l2 = true →
    ltStrChars l2 l3 = true → ltStrChars l1 l3 = true := by
  intro l1
  induction l1 with
  | nil =>
    intro l2 l3 h1 h2
    cases l3 with
    | nil =>
      cases l2 with
      | nil => exact Bool.noConfusion h1
      | cons b bs => exact Bool.noConfusion h2
    | cons c cs => rfl
  | cons a as ih =>
    intro l2 l3 h1 h2
    cases l2 with
    | nil => exact Bool.noConfusion h1
    | cons b bs =>
      cases l3 with
      | nil => exact Bool.noConfusion h2
      | cons c cs =>
        simp only [ltStrChars] at h1 h2 ⊢
        by_cases hab : a < b
        · by_cases hbc : b < c
          · rw [if_pos (lt_trans hab hbc)]
          · rw [if_neg hbc] at h2
            by_cases hcb : c < b
            · rw [if_pos hcb] at h2
              exact Bool.noConfusion h2
            · have hbc2 : b = c := le_antisymm (le_of_not_lt hcb) (le_of_not_lt hbc)
              subst hbc2
              rw [if_pos hab]
        · rw [if_neg hab] at h1
          by_cases hba : b < a
          · rw [if_pos hba] at h1
            exact Bool.noConfusion h1
          · rw [if_neg hba] at h1
            have hab2 : a = b := le_antisymm (le_of_not_lt hba) (le_of_not_lt hab)
            subst hab2
            by_cases hac : a < c
            · rw [if_pos hac]
            · rw [if_neg hac] at h2 ⊢
              by_cases hca : c < a
              · rw [if_pos hca] at h2
                exact Bool.noConfusion h2
              · rw [if_neg hca] at h2 ⊢
                exact ih bs cs h1 h2

theorem ltStrChars_conn : ∀ (l1 l2 : List Char), ltStrChars l1 l2 = false →
    ltStrChars l2 l1 = false → l1 = l2 := by
  intro l1
  induction l1 with
  | nil =>
    intro l2 h1 _
    cases l2 with
    | nil => rfl
    | cons b bs => exact Bool.noConfusion h1
  | cons a as ih =>
    intro l2 h1 h2
    cases l2 with
    | nil => exact Bool.noConfusion h2
    | cons b bs =>
      simp only [ltStrChars] at h1 h2
      by_cases hab : a < b
      · rw [if_pos hab] at h1
        exact Bool.noConfusion h1
      · by_cases hba : b < a
        · rw [if_pos hba] at h2
          exact Bool.noConfusion h2
        · rw [if_neg hab, if_neg hba] at h1
          rw [if_neg hba, if_neg hab] at h2
          have hh : a = b := le_antisymm (le_of_not_lt hba) (le_of_not_lt hab)
          subst hh
          rw [ih bs h1 h2]

theorem ltStr_irrefl (a : String) : ltStr a a = false := ltStrChars_irrefl a.data

theorem ltStr_trans (a b c : String) (h1 : ltStr a b = true) (h2 : ltStr b c = true) :
    ltStr a c = true := ltStrChars_trans a.data b.data c.data h1 h2

theorem ltStr_conn (a b : String) (h1 : ltStr a b = false) (h2 : ltStr b a = false) :
    a = b := by
  have hd := ltStrChars_conn a.data b.data h1 h2
  cases a with
  | mk da =>
    cases b with
    | mk db =>
      simp only [String.data] at hd
      rw [hd]

theorem minFold_mem : ∀ (l : List String) (a : String),
    l.foldl (fun acc s => if ltStr s acc then s else acc) a ∈ a :: l := by
  intro l
  induction l with
  | nil => intro a; exact List.mem_singleton.2 rfl
  | cons s l' ih =>
    intro a
    rw [List.foldl_cons]
    rcases List.mem_cons.1 (ih (if ltStr s a then s else a)) with h1 | h1
    · rw [h1]
      by_cases hc : ltStr s a
      · rw [if_pos hc]
        exact List.mem_cons_of_mem _ (List.mem_cons_self _ _)
      · rw [if_neg hc]
        exact List.mem_cons_self _ _
    · exact List.mem_cons_of_mem _ (List.mem_cons_of_mem _ h1)

theorem minFold_lb : ∀ (l : List String) (a x : String), x ∈ a :: l →
    ltStr x (l.foldl (fun acc s => if ltStr s acc then s else acc) a) = false := by
  intro l
  induction l with
  | nil =>
    intro a x hx
    rw [List.mem_singleton.1 hx]
    exact ltStr_irrefl a
  | cons s l' ih =>
    intro a x hx
    rw [List.foldl_cons]
    rcases List.mem_cons.1 hx with h1 | h1
    · rw [h1]
      by_cases hc : ltStr s a
      · rw [if_pos hc]
        cases hlt : ltStr a (l'.foldl (fun acc s => if ltStr s acc then s else acc) s) with
        | false => rfl
        | true =>
          have h2t := ltStr_trans s a _ hc hlt
          have h3 := ih s s (List.mem_cons_self _ _)
          rw [h2t] at h3
          exact Bool.noConfusion h3
      · rw [if_neg hc]
        exact ih a a (List.mem_cons_self _ _)
    · rcases List.mem_cons.1 h1 with h2 | h2
      · rw [h2]
        by_cases hc : ltStr s a
        · rw [if_pos hc]
          exact ih s s (List.mem_cons_self _ _)
        · rw [if_neg hc]
          by_cases hsa : s = a
          · rw [hsa]
            exact ih a a (List.mem_cons_self _ _)
          · have has : ltStr a s = true := by
              cases hq : ltStr a s with
              | true => rfl
              | false => exact absurd (ltStr_conn s a (by simpa using hc) hq) hsa
            cases hlt : ltStr s (l'.foldl (fun acc s => if ltStr s acc then s else acc) a) with
            | false => rfl
            | true =>
              have h2t := ltStr_trans a s _ has hlt
              have h3 := ih a a (List.mem_cons_self _ _)
              rw [h2t] at h3
              exact Bool.noConfusion h3
      · by_cases hc : ltStr s a
        · rw [if_pos hc]
          exact ih s x (List.mem_cons_of_mem _ h2)
        · rw [if_neg hc]
          exact ih a x (List.mem_cons_of_mem _ h2)

theorem minFold_eq_of_perm : ∀ (L1 L2 : List String) (a1 a2 : String),
    (a1 :: L1).Perm (a2 :: L2) →
    L1.foldl (fun acc s => if ltStr s acc then s else acc) a1 =
    L2.foldl (fun acc s => if ltStr s acc then s else acc) a2 := by
  intro L1 L2 a1 a2 hp
  have m1mem := minFold_mem L1 a1
  have m2mem := minFold_mem L2 a2
  have h1 := minFold_lb L2 a2 _ (hp.mem_iff.1 m1mem)
  have h2 := minFold_lb L1 a1 _ (hp.mem_iff.2 m2mem)
  exact ltStr_conn _ _ h1 h2

theorem foldl_min_ft (v : Tree) (fuel : Nat) : ∀ (l : List Ref) (a : String),
    l.foldl (fun acc d => if ltStr (firstTermF fuel v d) acc then firstTermF fuel v d else acc) a =
    (l.map (fun d => firstTermF fuel v d)).foldl (fun acc s => if ltStr s acc then s else acc) a := by
  intro l
  induction l with
  | nil => intro a; rfl
  | cons d l' ih =>
    intro a
    rw [List.map_cons, List.foldl_cons, List.foldl_cons, ih]

theorem foldl_add_size (v : Tree) (fuel : Nat) : ∀ (l : List Ref) (n : Nat),
    l.foldl (fun acc c => acc + sizeF fuel v c) n =
    n + (l.map (fun c => sizeF fuel v c)).sum := by
  intro l
  induction l with
  | nil => intro n; simp
  | cons c l' ih =>
    intro n
    rw [List.foldl_cons, ih, List.map_cons, List.sum_cons, Nat.add_assoc]

/-- Two trees with the same arena length whose nodes agree on every
field except `id`, with child lists equal up to ordering.  All the keys
of the `sortAllChildren` comparator are invariant under this relation. -/
def ShapeEq (t u : Tree) : Prop :=
  t.arena.length = u.arena.length ∧
  ∀ x : Ref, (u.nodeAt x).parent = (t.nodeAt x).parent ∧
    (u.nodeAt x).age = (t.nodeAt x).age ∧
    (u.nodeAt x).taxon = (t.nodeAt x).taxon ∧
    (u.nodeAt x).brLen = (t.nodeAt x).brLen ∧
    ((u.nodeAt x).children).Perm ((t.nodeAt x).children)

theorem shapeEq_refl (t : Tree) : ShapeEq t t :=
  ⟨rfl, fun _ => ⟨rfl, rfl, rfl, rfl, List.Perm.refl _⟩⟩

theorem shapeEq_trans {t u v : Tree} (h1 : ShapeEq t u) (h2 : ShapeEq u v) :
    ShapeEq t v := by
  obtain ⟨ha, hb⟩ := h1
  obtain ⟨hc, hd⟩ := h2
  refine ⟨ha.trans hc, fun x => ?_⟩
  obtain ⟨p1, a1, x1, b1, c1⟩ := hb x
  obtain ⟨p2, a2, x2, b2, c2⟩ := hd x
  exact ⟨p2.trans p1, a2.trans a1, x2.trans x1, b2.trans b1, c2.trans c1⟩

theorem shapeEq_symm {t u : Tree} (h : ShapeEq t u) : ShapeEq u t := by
  obtain ⟨ha, hb⟩ := h
  refine ⟨ha.symm, fun x => ?_⟩
  obtain ⟨p1, a1, x1, b1, c1⟩ := hb x
  exact ⟨p1.symm, a1.symm, x1.symm, b1.symm, c1.symm⟩

theorem sizeF_congr {t u : Tree} (h : ShapeEq t u) : ∀ (fuel : Nat) (r : Ref),
    sizeF fuel u r = sizeF fuel t r := by
  intro fuel
  induction fuel with
  | zero => intro r; rfl
  | succ fuel ih =>
    intro r
    obtain ⟨-, hx⟩ := h
    obtain ⟨-, -, -, -, hcp⟩ := hx r
    simp only [sizeF]
    by_cases hc : (t.nodeAt r).children = []
    · rw [if_pos hc, if_pos (List.Perm.eq_nil (hc ▸ hcp))]
    · have hcu : ¬ (u.nodeAt r).children = [] := by
        intro he
        rw [he] at hcp
        exact hc (List.Perm.eq_nil hcp.symm)
      rw [if_neg hc, if_neg hcu]
      have hfu : (fun (acc : Nat) c => acc + sizeF fuel u c) =
          (fun acc c => acc + sizeF fuel t c) := by
        funext acc c
        rw [ih c]
      rw [hfu, foldl_add_size, foldl_add_size,
        List.Perm.sum_eq (List.Perm.map _ hcp)]

theorem firstTermF_congr {t u : Tree} (h : ShapeEq t u) : ∀ (fuel : Nat) (r : Ref),
    firstTermF fuel u r = firstTermF fuel t r := by
  intro fuel
  induction fuel with
  | zero => intro r; rfl
  | succ fuel ih =>
    intro r
    obtain ⟨-, hx⟩ := h
    obtain ⟨-, -, htax, -, hcp⟩ := hx r
    cases hct : (t.nodeAt r).children with
    | nil =>
      rw [hct] at hcp
      have hcu : (u.nodeAt r).children = [] := List.Perm.eq_nil hcp
      simp only [firstTermF, hct, hcu]
      exact htax
    | cons c2 r2 =>
      rw [hct] at hcp
      cases hcu : (u.nodeAt r).children with
      | nil =>
        rw [hcu] at hcp
        exact absurd (List.Perm.eq_nil hcp.symm) (List.cons_ne_nil c2 r2)
      | cons c1 r1 =>
        rw [hcu] at hcp
        simp only [firstTermF, hct, hcu]
        have hfun : (fun acc d => if ltStr (firstTermF fuel u d) acc
            then firstTermF fuel u d else acc) =
            (fun acc d => if ltStr (firstTermF fuel t d) acc
            then firstTermF fuel t d else acc) := by
          funext acc d
          rw [ih d]
        rw [hfun, ih c1, foldl_min_ft t fuel r1 (firstTermF fuel t c1),
          foldl_min_ft t fuel r2 (firstTermF fuel t c2)]
        refine minFold_eq_of_perm _ _ _ _ ?_
        have hm := List.Perm.map (fun d => firstTermF fuel t d) hcp
        simpa using hm

theorem nodeBefore_congr {t u : Tree} (h : ShapeEq t u) (F : Nat) (a b : Ref) :
    nodeBefore u F a b = nodeBefore t F a b := by
  have ha := (h.2 a).2.1
  have hb := (h.2 b).2.1
  simp only [nodeBefore]
  rw [sizeF_congr h F a, sizeF_congr h F b, firstTermF_congr h F a,
    firstTermF_congr h F b, ha, hb]

/-- The `sortAllChildren` comparator of a tree, at the fuel `Format`
uses. -/
def cmpF (v : Tree) : Ref → Ref → Bool :=
  fun a b => nodeBefore v (v.arena.length + 1) a b

theorem cmpF_congr {t u : Tree} (h : ShapeEq t u) : cmpF u = cmpF t := by
  funext a b
  show nodeBefore u (u.arena.length + 1) a b = nodeBefore t (t.arena.length + 1) a b
  rw [← h.1]
  exact nodeBefore_congr h _ a b

theorem nodeAt_ge (t : Tree) (x : Ref) (h : t.arena.length ≤ x) : t.nodeAt x = nullNode := by
  simp [Tree.nodeAt, List.getElem?_eq_none h]

/-- Tie-freedom of the `Format` comparator: within every child list,
distinct siblings are comparable (and no sibling is listed twice).
`slices.SortFunc` is unstable, so this is exactly the condition under
which its result is determined. -/
@[reducible] def GC (t : Tree) : Prop :=
  ∀ x : Ref, x < t.arena.length →
    ((t.nodeAt x).children).Nodup ∧
    ∀ a ∈ (t.nodeAt x).children, ∀ b ∈ (t.nodeAt x).children,
      a ≠ b → cmpF t a b = true ∨ cmpF t b a = true

theorem GC_at {t : Tree} (h : GC t) (x : Ref) :
    ((t.nodeAt x).children).Nodup ∧
    ∀ a ∈ (t.nodeAt x).children, ∀ b ∈ (t.nodeAt x).children,
      a ≠ b → cmpF t a b = true ∨ cmpF t b a = true := by
  by_cases hx : x < t.arena.length
  · exact h x hx
  · rw [nodeAt_ge t x (Nat.le_of_not_lt hx)]
    exact ⟨List.nodup_nil, fun a ha => absurd ha (List.not_mem_nil a)⟩

theorem GC_congr {t u : Tree} (hs : ShapeEq t u) (hg : GC t) : GC u := by
  intro x hxu
  have hxt : x < t.arena.length := by
    rw [hs.1]
    exact hxu
  obtain ⟨hnd, hcx⟩ := hg x hxt
  have hperm := (hs.2 x).2.2.2.2
  constructor
  · exact (hperm.nodup_iff).2 hnd
  · intro a ha b hb hne
    rw [cmpF_congr hs]
    exact hcx a (hperm.mem_iff.1 ha) b (hperm.mem_iff.1 hb) hne

/-- One tree extends another by replacing some child lists with lists
that are sorted under the (stable) comparator. -/
def Rstep (v w : Tree) : Prop :=
  ∀ y : Ref, (w.nodeAt y).children = (v.nodeAt y).children ∨
    chainB (cmpF w) ((w.nodeAt y).children) = true

theorem rstep_refl (v : Tree) : Rstep v v := fun _ => Or.inl rfl

theorem rstep_trans {v w z : Tree} (hsz : ShapeEq w z) (h1 : Rstep v w) (h2 : Rstep w z) :
    Rstep v z := by
  intro y
  rcases h2 y with h | h
  · rcases h1 y with h' | h'
    · exact Or.inl (h.trans h')
    · refine Or.inr ?_
      rw [h, cmpF_congr hsz]
      exact h'
  · exact Or.inr h

theorem persist_chain {v w : Tree} (hs : ShapeEq v w) (hr : Rstep v w) (x : Ref)
    (h : chainB (cmpF v) ((v.nodeAt x).children) = true) :
    chainB (cmpF w) ((w.nodeAt x).children) = true := by
  rcases hr x with h1 | h1
  · rw [h1, cmpF_congr hs]
    exact h
  · exact h1

theorem insertSorted_perm {α : Type} (f : α → α → Bool) (x : α) :
    ∀ (l : List α), (insertSorted f x l).Perm (x :: l) := by
  intro l
  induction l with
  | nil => exact List.Perm.refl _
  | cons y ys ih =>
    simp only [insertSorted]
    by_cases hc : f x y
    · rw [if_pos hc]
    · rw [if_neg hc]
      exact (List.Perm.cons y ih).trans (List.Perm.swap x y ys)

theorem sortBy_perm {α : Type} (f : α → α → Bool) : ∀ (l : List α), (sortBy f l).Perm l := by
  intro l
  induction l with
  | nil => exact List.Perm.refl _
  | cons x xs ih =>
    show (insertSorted f x (sortBy f xs)).Perm (x :: xs)
    exact (insertSorted_perm f x (sortBy f xs)).trans (List.Perm.cons x ih)

theorem insertSorted_chain (f : Ref → Ref → Bool) (x : Ref) :
    ∀ (l : List Ref), chainB f l = true →
    (∀ b ∈ l, x ≠ b → f x b = true ∨ f b x = true) → x ∉ l →
    chainB f (insertSorted f x l) = true := by
  intro l
  induction l with
  | nil => intro _ _ _; rfl
  | cons y ys ih =>
    intro hch hcx hnx
    simp only [insertSorted]
    by_cases hc : f x y
    · rw [if_pos hc]
      show (f x y && chainB f (y :: ys)) = true
      rw [hc, hch]
      rfl
    · rw [if_neg hc]
      have hxy : x ≠ y := fun he => hnx (he ▸ List.mem_cons_self y ys)
      have hyx : f y x = true := by
        rcases hcx y (List.mem_cons_self _ _) hxy with h1 | h1
        · exact absurd h1 (by simpa using hc)
        · exact h1
      cases hys : ys with
      | nil =>
        simp [insertSorted, chainB, hyx]
      | cons z zs =>
        rw [hys] at hch hcx hnx
        simp only [chainB, Bool.and_eq_true] at hch
        simp only [insertSorted]
        by_cases hxz : f x z
        · rw [if_pos hxz]
          show (f y x && chainB f (x :: z :: zs)) = true
          rw [hyx]
          show (true && (f x z && chainB f (z :: zs))) = true
          rw [hxz, hch.2]
          rfl
        · rw [if_neg hxz]
          rw [hys] at ih
          have hins := ih hch.2 (fun b hb hne => hcx b (List.mem_cons_of_mem _ hb) hne)
            (fun hm => hnx (List.mem_cons_of_mem _ hm))
          rw [show insertSorted f x (z :: zs) = z :: insertSorted f x zs from by
            simp only [insertSorted]; rw [if_neg hxz]] at hins
          show (f y z && chainB f (z :: insertSorted f x zs)) = true
          rw [hch.1, hins]
          rfl

/-- Insertion sort yields a sorted list when distinct entries are
pairwise comparable and no entry repeats. -/
theorem sortBy_sorts (f : Ref → Ref → Bool) : ∀ (l : List Ref), l.Nodup →
    (∀ a ∈ l, ∀ b ∈ l, a ≠ b → f a b = true ∨ f b a = true) →
    chainB f (sortBy f l) = true := by
  intro l
  induction l with
  | nil => intro _ _; rfl
  | cons x xs ih =>
    intro hnd hcx
    simp only [List.nodup_cons] at hnd
    show chainB f (insertSorted f x (sortBy f xs)) = true
    refine insertSorted_chain f x (sortBy f xs) (ih hnd.2 ?_) ?_ ?_
    · intro a ha b hb hne
      exact hcx a (List.mem_cons_of_mem _ ha) b (List.mem_cons_of_mem _ hb) hne
    · intro b hb hne
      exact hcx x (List.mem_cons_self _ _)
        b (List.mem_cons_of_mem _ ((sortBy_perm f xs).mem_iff.1 hb)) hne
    · intro hm
      exact hnd.1 ((sortBy_perm f xs).mem_iff.1 hm)

theorem mem_foldl_append_inv {α β : Type} (f : β → List α) (x : α) :
    ∀ (l : List β) (L0 : List α), x ∈ l.foldl (fun acc c => acc ++ f c) L0 →
    x ∈ L0 ∨ ∃ c ∈ l, x ∈ f c := by
  intro l
  induction l with
  | nil => intro L0 h; exact Or.inl h
  | cons d ds ih =>
    intro L0 h
    rw [List.foldl_cons] at h
    rcases ih _ h with h1 | h1
    · rcases List.mem_append.1 h1 with h2 | h2
      · exact Or.inl h2
      · exact Or.inr ⟨d, List.mem_cons_self _ _, h2⟩
    · obtain ⟨c, hc, hx⟩ := h1
      exact Or.inr ⟨c, List.mem_cons_of_mem _ hc, hx⟩

theorem mem_preOrder_iff (fuel : Nat) (v : Tree) (r x : Ref) :
    x ∈ preOrderF (fuel + 1) v r ↔
    x = r ∨ ∃ c ∈ (v.nodeAt r).children, x ∈ preOrderF fuel v c := by
  constructor
  · intro h
    simp only [preOrderF] at h
    rcases List.mem_cons.1 h with h1 | h1
    · exact Or.inl h1
    · rcases mem_foldl_append_inv _ x _ _ h1 with h2 | h2
      · exact absurd h2 (List.not_mem_nil x)
      · exact Or.inr h2
  · intro h
    simp only [preOrderF]
    rcases h with h1 | ⟨c, hc, hx⟩
    · rw [h1]
      exact List.mem_cons_self _ _
    · exact List.mem_cons_of_mem _ (mem_foldl_append _ x c _ _ hc hx)

theorem mem_preOrder_shape {v w : Tree} (hs : ShapeEq v w) :
    ∀ (fuel : Nat) (r x : Ref), x ∈ preOrderF fuel v r ↔ x ∈ preOrderF fuel w r := by
  intro fuel
  induction fuel with
  | zero => intro r x; exact Iff.rfl
  | succ fuel ih =>
    intro r x
    rw [mem_preOrder_iff, mem_preOrder_iff]
    have hperm := (hs.2 r).2.2.2.2
    constructor
    · rintro (h | ⟨c, hc, hx⟩)
      · exact Or.inl h
      · exact Or.inr ⟨c, hperm.mem_iff.2 hc, (ih c x).1 hx⟩
    · rintro (h | ⟨c, hc, hx⟩)
      · exact Or.inl h
      · exact Or.inr ⟨c, hperm.mem_iff.1 hc, (ih c x).2 hx⟩

theorem sortAllF_root : ∀ (fuel : Nat) (t : Tree) (r : Ref),
    (sortAllF fuel t r).root = t.root := by
  intro fuel
  induction fuel with
  | zero => intro t r; rfl
  | succ fuel ih =>
    intro t r
    simp only [sortAllF]
    rw [root_modify]
    have hfold : ∀ (l : List Ref) (u : Tree),
        (l.foldl (fun acc c => sortAllF fuel acc c) u).root = u.root := by
      intro l
      induction l with
      | nil => intro u; rfl
      | cons c cs ihl =>
        intro u
        rw [List.foldl_cons, ihl, ih]
    exact hfold _ _

theorem shapeEq_modify_children (t : Tree) (r : Ref) (newCh : List Ref)
    (hp : newCh.Perm ((t.nodeAt r).children)) :
    ShapeEq t (t.modifyNode r (fun q => { q with children := newCh })) := by
  constructor
  · simp [Tree.modifyNode, Tree.setNode]
  · intro x
    by_cases hx : x = r
    · rw [hx]
      by_cases hb : r < t.arena.length
      · rw [nodeAt_modify_self _ _ _ hb]
        exact ⟨rfl, rfl, rfl, rfl, hp⟩
      · rw [Tree.modifyNode, nodeAt_setNode_ge _ _ _ (Nat.le_of_not_lt hb)]
        exact ⟨rfl, rfl, rfl, rfl, List.Perm.refl _⟩
    · rw [nodeAt_modify_other _ _ _ _ hx]
      exact ⟨rfl, rfl, rfl, rfl, List.Perm.refl _⟩

/-- Master induction over `sortAllChildren`: the result keeps the shape
of the input, only replaces child lists by sorted ones, and every child
list in the visited subtree ends up sorted under the (stable)
comparator. -/
theorem sortAll_main : ∀ (fuel : Nat) (t : Tree) (r : Ref), GC t →
    ShapeEq t (sortAllF fuel t r) ∧ Rstep t (sortAllF fuel t r) ∧
    ∀ x ∈ preOrderF fuel (sortAllF fuel t r) r,
      chainB (cmpF (sortAllF fuel t r)) (((sortAllF fuel t r).nodeAt x).children) = true := by
  intro fuel
  induction fuel with
  | zero =>
    intro t r _
    exact ⟨shapeEq_refl t, rstep_refl t, fun x hx => absurd hx (List.not_mem_nil x)⟩
  | succ fuel ih =>
    intro t r hgc
    have hfold : ∀ (cs : List Ref) (v : Tree), ShapeEq t v →
        ShapeEq v (cs.foldl (fun acc c => sortAllF fuel acc c) v) ∧
        Rstep v (cs.foldl (fun acc c => sortAllF fuel acc c) v) ∧
        ∀ c ∈ cs, ∀ x ∈ preOrderF fuel (cs.foldl (fun acc c => sortAllF fuel acc c) v) c,
          chainB (cmpF (cs.foldl (fun acc c => sortAllF fuel acc c) v))
            (((cs.foldl (fun acc c => sortAllF fuel acc c) v).nodeAt x).children) = true := by
      intro cs
      induction cs with
      | nil =>
        intro v _
        exact ⟨shapeEq_refl v, rstep_refl v, fun c hc => absurd hc (List.not_mem_nil c)⟩
      | cons c0 cs' ihl =>
        intro v htv
        simp only [List.foldl_cons]
        obtain ⟨hs1, hr1, hsort1⟩ := ih v c0 (GC_congr htv hgc)
        obtain ⟨hs2, hr2, hsort2⟩ := ihl (sortAllF fuel v c0) (shapeEq_trans htv hs1)
        refine ⟨shapeEq_trans hs1 hs2, rstep_trans hs2 hr1 hr2, ?_⟩
        intro c hc x hx
        rcases List.mem_cons.1 hc with h | h
        · rw [h] at hx
          have hx1 : x ∈ preOrderF fuel (sortAllF fuel v c0) c0 :=
            (mem_preOrder_shape hs2 fuel c0 x).2 hx
          exact persist_chain hs2 hr2 x (hsort1 x hx1)
        · exact hsort2 c h x hx
    obtain ⟨T1, hT1⟩ : ∃ u,
        (t.nodeAt r).children.foldl (fun acc c => sortAllF fuel acc c) t = u := ⟨_, rfl⟩
    obtain ⟨hsf, hrf, hsortf⟩ := hfold (t.nodeAt r).children t (shapeEq_refl t)
    rw [hT1] at hsf hrf hsortf
    simp only [sortAllF]
    rw [hT1]
    obtain ⟨W, hW⟩ : ∃ w, T1.modifyNode r (fun q => { q with children := sortBy (fun a b => nodeBefore T1 (T1.arena.length + 1) a b) q.children }) = w := ⟨_, rfl⟩
    rw [hW]
    have hsW : ShapeEq T1 W := by
      rw [← hW]
      exact shapeEq_modify_children T1 r
        (sortBy (cmpF T1) ((T1.nodeAt r).children)) (sortBy_perm _ _)
    have hchainr : chainB (cmpF W) ((W.nodeAt r).children) = true := by
      by_cases hb : r < T1.arena.length
      · have hWr : W.nodeAt r = { T1.nodeAt r with
            children := sortBy (cmpF T1) ((T1.nodeAt r).children) } := by
          rw [← hW, nodeAt_modify_self _ _ _ hb]
          rfl
        rw [hWr]
        show chainB (cmpF W) (sortBy (cmpF T1) ((T1.nodeAt r).children)) = true
        rw [cmpF_congr hsW]
        obtain ⟨hnd, hcx⟩ := GC_at (GC_congr hsf hgc) r
        exact sortBy_sorts _ _ hnd hcx
      · have hWT : W = T1 := by
          rw [← hW, Tree.modifyNode]
          exact nodeAt_setNode_ge _ _ _ (Nat.le_of_not_lt hb)
        rw [hWT, nodeAt_ge T1 r (Nat.le_of_not_lt hb)]
        rfl
    have hrW : Rstep T1 W := by
      intro y
      by_cases hb : r < T1.arena.length
      · by_cases hy : y = r
        · rw [hy]
          exact Or.inr hchainr
        · refine Or.inl ?_
          rw [← hW, nodeAt_modify_other _ _ _ _ hy]
      · have hWT : W = T1 := by
          rw [← hW, Tree.modifyNode]
          exact nodeAt_setNode_ge _ _ _ (Nat.le_of_not_lt hb)
        rw [hWT]
        exact Or.inl rfl
    refine ⟨shapeEq_trans hsf hsW, rstep_trans hsW hrf hrW, ?_⟩
    intro x hx
    rcases (mem_preOrder_iff fuel W r x).1 hx with h | ⟨c, hc, hxc⟩
    · rw [h]
      exact hchainr
    · have hc1 : c ∈ (T1.nodeAt r).children := ((hsW.2 r).2.2.2.2).mem_iff.1 hc
      have hc2 : c ∈ (t.nodeAt r).children := ((hsf.2 r).2.2.2.2).mem_iff.1 hc1
      have hx1 : x ∈ preOrderF fuel T1 c := (mem_preOrder_shape hsW fuel c x).2 hxc
      exact persist_chain hsW hrW x (hsortf c hc2 x hx1)

theorem sortedBelow_of_chain : ∀ (fuel : Nat) (u : Tree) (r : Ref),
    (∀ x ∈ preOrderF fuel u r, chainB (cmpF u) ((u.nodeAt x).children) = true) →
    sortedBelow fuel u r = true := by
  intro fuel
  induction fuel with
  | zero => intro u r _; rfl
  | succ fuel ih =>
    intro u r h
    simp only [sortedBelow, Bool.and_eq_true, List.all_eq_true]
    constructor
    · exact h r ((mem_preOrder_iff fuel u r r).2 (Or.inl rfl))
    · intro c hc
      refine ih u c ?_
      intro x hx
      exact h x ((mem_preOrder_iff fuel u r x).2 (Or.inr ⟨c, hc, hx⟩))

theorem renum_node : ∀ (l : List (Nat × Ref)) (u : Tree) (x : Ref),
    ∃ i : Int, (l.foldl (fun acc ir => acc.modifyNode ir.2
      (fun q => { q with id := (ir.1 : Int) })) u).nodeAt x = { u.nodeAt x with id := i } := by
  intro l
  induction l with
  | nil => intro u x; exact ⟨(u.nodeAt x).id, rfl⟩
  | cons ir l' ih =>
    intro u x
    rw [List.foldl_cons]
    obtain ⟨i, hi⟩ := ih (u.modifyNode ir.2 (fun q => { q with id := (ir.1 : Int) })) x
    rw [hi]
    by_cases hx : x = ir.2
    · by_cases hb : ir.2 < u.arena.length
      · refine ⟨i, ?_⟩
        rw [hx, nodeAt_modify_self _ _ _ hb]
      · refine ⟨i, ?_⟩
        rw [hx, Tree.modifyNode, nodeAt_setNode_ge _ _ _ (Nat.le_of_not_lt hb)]
    · refine ⟨i, ?_⟩
      rw [nodeAt_modify_other _ _ _ _ hx]

theorem shapeEq_renum (ns : List (Nat × Ref)) (u : Tree) :
    ShapeEq u (ns.foldl (fun acc ir => acc.modifyNode ir.2
      (fun q => { q with id := (ir.1 : Int) })) u) := by
  constructor
  · exact (renum_len ns u).symm
  · intro x
    obtain ⟨i, hi⟩ := renum_node ns u x
    rw [hi]
    exact ⟨rfl, rfl, rfl, rfl, List.Perm.refl _⟩

theorem sortedBelow_congr {v w : Tree} (hs : ShapeEq v w)
    (hch : ∀ x, (w.nodeAt x).children = (v.nodeAt x).children) :
    ∀ (fuel : Nat) (r : Ref), sortedBelow fuel w r = sortedBelow fuel v r := by
  intro fuel
  induction fuel with
  | zero => intro r; rfl
  | succ fuel ih =>
    intro r
    simp only [sortedBelow]
    rw [hch r]
    congr 1
    · show chainB (cmpF w) ((v.nodeAt r).children) =
        chainB (cmpF v) ((v.nodeAt r).children)
      rw [cmpF_congr hs]
    · have hfun : (fun c => sortedBelow fuel w c) = (fun c => sortedBelow fuel v c) :=
        funext fun c => ih c
      rw [hfun]

/-- **C6**.  `Format` is a fixed point: on a tree whose sibling
comparator keys are tie-free (`GC` — the condition the stated total
order presumes, since Go's unstable `slices.SortFunc` has no determined
result on ties) and whose canonical pre-order visit has no duplicate
in-bounds refs, the second `Format` changes nothing: children are
sorted by the stated total order (fewer-terminal subtrees first, then
older age first, then smallest reachable taxon name — `nodeBefore`)
already after the first `Format`, and the pre-order renumbering is then
the identity, so the node-ID assignment is identical both times. -/
theorem format_fixed_point (t : Tree)
    (hGC : GC t)
    (hNodup : (preOrderF ((t.Format).arena.length + 1) t.Format (t.Format).root).Nodup)
    (hBound : ∀ r ∈ preOrderF ((t.Format).arena.length + 1) t.Format (t.Format).root,
      r < (t.Format).arena.length) :
    (t.Format).Format = t.Format := by
  obtain ⟨t1, ht1⟩ : ∃ u, sortAllF (t.arena.length + 1) t t.root = u := ⟨_, rfl⟩
  obtain ⟨ns, hns⟩ : ∃ l, preOrderF (t1.arena.length + 1) t1 t1.root = l := ⟨_, rfl⟩
  obtain ⟨T, hT⟩ : ∃ u, t.Format = u := ⟨_, rfl⟩
  rw [hT] at hNodup hBound
  have hF : T = { (ns.enum.foldl (fun acc ir => acc.modifyNode ir.2
      (fun q => { q with id := (ir.1 : Int) })) t1) with
      nodes := ns.enum.map (fun ir => ((ir.1 : Int), ir.2)) } := by
    rw [← hT]
    simp only [Tree.Format]
    rw [ht1, hns]
  obtain ⟨t2, ht2⟩ : ∃ u, ns.enum.foldl (fun acc ir => acc.modifyNode ir.2
      (fun q => { q with id := (ir.1 : Int) })) t1 = u := ⟨_, rfl⟩
  rw [ht2] at hF
  have hroot : T.root = t1.root := by
    rw [hF]
    show t2.root = t1.root
    rw [← ht2]
    exact renum_root _ _
  have hlen : T.arena.length = t1.arena.length := by
    rw [hF]
    show t2.arena.length = t1.arena.length
    rw [← ht2]
    exact renum_len _ _
  have hchild : ∀ x, (T.nodeAt x).children = (t1.nodeAt x).children := by
    intro x
    rw [hF]
    show (t2.nodeAt x).children = (t1.nodeAt x).children
    rw [← ht2]
    exact renum_children _ _ _
  obtain ⟨hshape1, -, hsort1⟩ := ht1 ▸ sortAll_main (t.arena.length + 1) t t.root hGC
  have hlen1 : t1.arena.length = t.arena.length := hshape1.1.symm
  have hroot1 : t1.root = t.root := by
    rw [← ht1]
    exact sortAllF_root _ _ _
  have hsb1 : sortedBelow (t.arena.length + 1) t1 t.root = true :=
    sortedBelow_of_chain _ _ _ hsort1
  have hsT : ShapeEq t1 T := by
    have h2 := shapeEq_renum ns.enum t1
    rw [ht2] at h2
    rw [hF]
    exact h2
  have hSorted : sortedBelow ((T.arena.length + 1)) T T.root = true := by
    rw [sortedBelow_congr hsT hchild, hlen, hlen1, hroot, hroot1]
    exact hsb1
  have hNS : preOrderF (T.arena.length + 1) T T.root = ns := by
    rw [hlen, hroot, preOrderF_congr (t1.arena.length + 1) t1 T t1.root
      (fun x _ => hchild x)]
    exact hns
  have hIds : ∀ p ∈ ns.enum, (T.nodeAt p.2).id = (p.1 : Int) := by
    intro p hp
    rw [hF]
    show (t2.nodeAt p.2).id = (p.1 : Int)
    rw [← ht2]
    refine renum_id ns.enum t1 ?_ ?_ p hp
    · rw [List.enum_map_snd]
      exact hNS ▸ hNodup
    · intro q hq
      have hmem : q.2 ∈ ns := by
        have hm := List.mem_map_of_mem Prod.snd hq
        rwa [List.enum_map_snd] at hm
      have hb := hBound q.2 (by rw [hNS]; exact hmem)
      rwa [hlen] at hb
  rw [hT]
  show T.Format = T
  simp only [Tree.Format]
  rw [sortAllF_eq_self _ _ _ hSorted, hNS, renum_fold_self ns.enum T hIds]
  have hTnodes : T.nodes = ns.enum.map (fun ir => ((ir.1 : Int), ir.2)) := by
    rw [hF]
  rw [← hTnodes]

/-- Witness tree for C6: root (age 100) with terminals `b` (age 80,
added first) and `a` (age 90) — deliberately out of canonical order, so
the first `Format` really reorders and renumbers. -/
def c6tree : Tree := (((New "t" 100).Add 0 20 "b").1.Add 0 10 "a").1

/-- Witness for C6: on `c6tree` the first `Format` changes the tree and
the second changes nothing. -/
theorem format_fixed_point_witness :
    (c6tree.Format).Format = c6tree.Format ∧ c6tree.Format ≠ c6tree :=
  ⟨format_fixed_point c6tree (by decide) (by decide) (by decide), by decide⟩

/-! ## Claim C1: age monotonicity invariant -/

/-- Root of age 10; `Add(0, -5, "a")` passes `Add`'s only age check
(`age < 0`) because `10 - (-5) = 15 ≥ 0`, creating a child *older* than
its parent; a second child keeps the root binary so `Validate`
passes. -/
def c1bad : Tree := (((New "t" 10).Add 0 (-5) "a").1.Add 0 1 "b").1

/-- **C1** (code-bug evidence).  `Add` validates only `age ≥ 0`, not
`brLen ≥ 0` (the check the `add` command performs at the CLI layer), so
a single public call creates a non-root node older than its parent:
after `New("t",10); Add(0,-5,"a"); Add(0,1,"b")` the tree passes
`Validate` yet node 1 has parent 0 and age 15 > 10.  The age
monotonicity invariant is therefore not maintained by every public
mutator call. -/
theorem age_monotonic_violation :
    c1bad.Validate = none ∧ c1bad.Parent 1 = 0 ∧
    c1bad.Age 1 = 15 ∧ c1bad.Age 0 = 10 := by
  decide

/-! ## Claim C5: tabular round-trip -/

/-- A `Validate`-passing tree with a child older than its parent
(created through `Add`'s missing branch-length check): node 1 has age
13 under a root of age 10. -/
def c5bad : Tree := (((New "t" 10).Add 0 (-3) "x").1.Add 0 2 "y").1

/-- A `Validate`-passing tree whose name is empty; the TSV reader
skips every row whose normalized tree name is empty. -/
def c5name : Tree := (((New "" 10).Add 0 1 "p").1.Add 0 2 "q").1

/-- **C5** (code-bug evidence).  Two `Validate`-passing trees fail the
tabular round-trip: `c5bad` (non-monotone ages, which `Validate` does
not check but the reader rejects with the `age should be less than`
error) yields a read error instead of a tree; `c5name` (empty tree
name) is silently skipped row-by-row, yielding an empty collection
instead of a three-node tree. -/
theorem tsv_roundtrip_failure :
    (c5bad.Validate = none ∧
      ReadTSVRows ((c5bad.Format).tsvRows) = .error .badAge) ∧
    (c5name.Validate = none ∧
      ReadTSVRows ((c5name.Format).tsvRows) = .ok []) := by
  decide

end Timetree
